import Mathlib

/-!
Verification development for the JSON tree visualizer core
(`lib/jsonTree.ts`): the structural builder, layout engine, graph
emitter and JSON-path resolver, together with the properties relating
them.  JSON values are embedded as a mutual inductive family so that
every operation is a computable structural recursion; JS numbers are
modelled as integers (the code never does arithmetic on document
numbers, it only renders them), and JS strings as Lean strings.
-/

namespace JsonTree

/-! ## JSON values -/

mutual

inductive Json where
  | null : Json
  | boolean : Bool → Json
  | num : Int → Json
  | str : String → Json
  | arr : JsonList → Json
  | obj : JsonFields → Json

inductive JsonList where
  | nil : JsonList
  | cons : Json → JsonList → JsonList

inductive JsonFields where
  | nil : JsonFields
  | cons : String → Json → JsonFields → JsonFields

end

def JsonList.length : JsonList → Nat
  | .nil => 0
  | .cons _ t => t.length + 1

def JsonList.get? : JsonList → Nat → Option Json
  | .nil, _ => none
  | .cons v _, 0 => some v
  | .cons _ t, n + 1 => t.get? n

/-- Element access with a default, mirroring a guarded `array[i]`. -/
def JsonList.getD (l : JsonList) (i : Nat) (d : Json) : Json :=
  (l.get? i).getD d

def JsonFields.keys : JsonFields → List String
  | .nil => []
  | .cons k _ t => k :: t.keys

/-- `Object.prototype.hasOwnProperty.call(o, k)`. -/
def JsonFields.hasOwn : JsonFields → String → Bool
  | .nil, _ => false
  | .cons k _ t, s => k = s || t.hasOwn s

/-- First binding for a key (JS objects cannot repeat keys). -/
def JsonFields.get? : JsonFields → String → Option Json
  | .nil, _ => none
  | .cons k v t, s => if k = s then some v else t.get? s

/-! ## JS decimal rendering of integers and `parseInt` -/

/-- Whitespace for the purposes of `String.prototype.trim` and
`Number.parseInt` (the common JS whitespace and line terminators). -/
def isJsWhitespace (c : Char) : Bool :=
  c = ' ' || c = '\t' || c = '\n' || c = '\r' ||
  c = Char.ofNat 11 || c = Char.ofNat 12 ||
  c = Char.ofNat 160 || c = Char.ofNat 65279 ||
  c = Char.ofNat 8232 || c = Char.ofNat 8233

def isDigitChar (c : Char) : Bool :=
  48 ≤ c.toNat && c.toNat ≤ 57

def digitChar (d : Nat) : Char := Char.ofNat (48 + d)

/-- Decimal digits of a natural number, most significant first. -/
def natToDigits (n : Nat) : List Char :=
  if _ : n < 10 then [digitChar n]
  else natToDigits (n / 10) ++ [digitChar (n % 10)]
  decreasing_by exact Nat.div_lt_self (by omega) (by omega)

/-- JS `String(n)` for a non-negative integer. -/
def natToString (n : Nat) : String := ⟨natToDigits n⟩

/-- JS `String(n)` for an integer. -/
def intToString : Int → String
  | .ofNat n => natToString n
  | .negSucc m => "-" ++ natToString (m + 1)

/-- Value of a digit list, most significant first. -/
def digitsToNat (ds : List Char) : Nat :=
  ds.foldl (fun acc c => acc * 10 + (c.toNat - 48)) 0

/-- `Number.parseInt(s, 10)`: skip whitespace, optional sign, then the
longest digit run; `none` models `NaN` (no digits found). -/
def jsParseInt (s : String) : Option Int :=
  let cs := s.data.dropWhile isJsWhitespace
  match cs with
  | '-' :: r =>
      let digs := r.takeWhile isDigitChar
      if digs.isEmpty then none else some (-(digitsToNat digs : Int))
  | '+' :: r =>
      let digs := r.takeWhile isDigitChar
      if digs.isEmpty then none else some (digitsToNat digs : Int)
  | r =>
      let digs := r.takeWhile isDigitChar
      if digs.isEmpty then none else some (digitsToNat digs : Int)

/-- `String.prototype.trim` on a character list. -/
def jsTrimList (cs : List Char) : List Char :=
  ((cs.dropWhile isJsWhitespace).reverse.dropWhile isJsWhitespace).reverse

def jsTrim (s : String) : String := ⟨jsTrimList s.data⟩

/-! ## Node kinds, type detection, primitive formatting -/

inductive JsonNodeType where
  | object | array | primitive | value
deriving DecidableEq, Repr

/-- `detectNodeType`: arrays, then non-null objects, else primitive. -/
def detectNodeType : Json → JsonNodeType
  | .arr _ => .array
  | .obj _ => .object
  | _ => .primitive

/-- `formatPrimitive`: strings quoted verbatim, `null` literal, others via
`String(value)`.  Only ever applied to primitives; containers map to a
junk value that the builder never uses. -/
def formatPrimitive : Json → String
  | .str s => "\"" ++ s ++ "\""
  | .null => "null"
  | .boolean true => "true"
  | .boolean false => "false"
  | .num n => intToString n
  | .arr _ => ""
  | .obj _ => ""

/-! ## The intermediate structured tree -/

mutual

inductive StructuredNode where
  | mk : String → String → JsonNodeType → Nat → SNodeList → StructuredNode

inductive SNodeList where
  | nil : SNodeList
  | cons : StructuredNode → SNodeList → SNodeList

end

def StructuredNode.id : StructuredNode → String
  | .mk i _ _ _ _ => i

def StructuredNode.label : StructuredNode → String
  | .mk _ l _ _ _ => l

def StructuredNode.type : StructuredNode → JsonNodeType
  | .mk _ _ t _ _ => t

def StructuredNode.depth : StructuredNode → Nat
  | .mk _ _ _ d _ => d

def StructuredNode.children : StructuredNode → SNodeList
  | .mk _ _ _ _ cs => cs

def SNodeList.length : SNodeList → Nat
  | .nil => 0
  | .cons _ t => t.length + 1

/- `buildStructuredNode(value, key, depth, path)` and the two child
loops (`entries.map` over object fields, `array.map` over elements with
the running index). -/
mutual

def buildStructuredNode : Json → String → Nat → String → StructuredNode
  | .obj fields, key, depth, path =>
      .mk path (if key = "root" then "{ }" else key ++ " { }") .object depth
        (buildObjChildren fields depth path)
  | .arr elems, key, depth, path =>
      .mk path
        (if key = "root" then "[]"
         else if key.startsWith "[" then key else key ++ " []")
        .array depth (buildArrChildren elems 0 depth path)
  | v, key, depth, path =>
      if key = "root" then .mk path (formatPrimitive v) .value depth .nil
      else
        .mk path key .primitive depth
          (.cons (.mk (path ++ ".value") (formatPrimitive v) .value (depth + 1) .nil) .nil)

def buildObjChildren : JsonFields → Nat → String → SNodeList
  | .nil, _, _ => .nil
  | .cons k v rest, depth, path =>
      .cons (buildStructuredNode v k (depth + 1) (path ++ "." ++ k))
        (buildObjChildren rest depth path)

def buildArrChildren : JsonList → Nat → Nat → String → SNodeList
  | .nil, _, _, _ => .nil
  | .cons v rest, i, depth, path =>
      .cons
        (buildStructuredNode v ("[" ++ natToString i ++ "]") (depth + 1)
          (path ++ "." ++ natToString i))
        (buildArrChildren rest (i + 1) depth path)

end

/-! ## Tree inspection helpers -/

/- All nodes of a structured tree, in depth-first (preorder) order. -/
mutual

def allNodes : StructuredNode → List StructuredNode
  | .mk i l t d cs => .mk i l t d cs :: allNodesL cs

def allNodesL : SNodeList → List StructuredNode
  | .nil => []
  | .cons c cs => allNodes c ++ allNodesL cs

end

def allIds (n : StructuredNode) : List String := (allNodes n).map StructuredNode.id

/- Ids of the childless nodes, in depth-first left-to-right order. -/
mutual

def leafIds : StructuredNode → List String
  | .mk i _ _ _ .nil => [i]
  | .mk _ _ _ _ (.cons c cs) => leafIdsL (.cons c cs)

def leafIdsL : SNodeList → List String
  | .nil => []
  | .cons c cs => leafIds c ++ leafIdsL cs

end

/-! ## Access-token abstraction used to state properties

A node of the structured tree is addressed by the list of dot-separated
segments of its id after `root`: object keys, decimal array indices,
and the synthetic trailing `value` segment.  `tokLists v key` computes
the segment lists of the subtree the builder produces for value `v`
reached under JS key `key`. -/

mutual

def tokLists : Json → String → List (List String)
  | .obj fields, _ => [] :: tokListsF fields
  | .arr elems, _ => [] :: tokListsL elems 0
  | _, key => if key = "root" then [[]] else [[], ["value"]]

def tokListsF : JsonFields → List (List String)
  | .nil => []
  | .cons k v rest => (tokLists v k).map (k :: ·) ++ tokListsF rest

def tokListsL : JsonList → Nat → List (List String)
  | .nil, _ => []
  | .cons v rest, i =>
      (tokLists v ("[" ++ natToString i ++ "]")).map (natToString i :: ·) ++
        tokListsL rest (i + 1)

end

/-- Dot-join of id segments relative to a node: `joinSegs ["a","0"]`
is `".a.0"`. -/
def joinSegs : List String → String
  | [] => ""
  | t :: ts => "." ++ t ++ joinSegs ts

/- All object keys occurring anywhere in a JSON value. -/
mutual

def allKeys : Json → List String
  | .obj fields => fields.keys ++ allKeysF fields
  | .arr elems => allKeysL elems
  | _ => []

def allKeysF : JsonFields → List String
  | .nil => []
  | .cons _ v rest => allKeys v ++ allKeysF rest

def allKeysL : JsonList → List String
  | .nil => []
  | .cons v rest => allKeys v ++ allKeysL rest

end

/- Shape well-formedness a value obtained from `JSON.parse` always has:
within each object the keys are pairwise distinct. -/
mutual

def jsonWF : Json → Bool
  | .obj fields => decide fields.keys.Nodup && jsonWFF fields
  | .arr elems => jsonWFL elems
  | _ => true

def jsonWFF : JsonFields → Bool
  | .nil => true
  | .cons _ v rest => jsonWF v && jsonWFF rest

def jsonWFL : JsonList → Bool
  | .nil => true
  | .cons v rest => jsonWF v && jsonWFL rest

end

/-! ## Layout engine -/

def HORIZONTAL_GAP : Int := 200
def VERTICAL_GAP : Int := 120

abbrev Pos := Int × Int

/-- `Map.set`: replaces the value in place if the key is present
(keeping insertion order), otherwise appends. -/
def mapSet (m : List (String × Pos)) (k : String) (v : Pos) : List (String × Pos) :=
  if m.any (fun e => e.1 = k) then
    m.map (fun e => if e.1 = k then (k, v) else e)
  else m ++ [(k, v)]

/-- `Map.get`. -/
def mapGet (m : List (String × Pos)) (k : String) : Option Pos :=
  (m.find? (fun e => e.1 = k)).map (fun e => e.2)

structure PlaceState where
  positions : List (String × Pos)
  leafIndex : Nat

/-- `Math.min` with an accumulator that starts at positive infinity. -/
def optMin : Option Int → Int → Int
  | none, b => b
  | some a, b => min a b

/-- `Math.max` with an accumulator that starts at negative infinity. -/
def optMax : Option Int → Int → Int
  | none, b => b
  | some a, b => max a b

/- The recursive `place` closure of `assignPositions`, with the shared
`leafIndex` counter and the `positions` map threaded explicitly, and
the `±Infinity` fold accumulators as `Option Int` (`none` = not yet
finite).  Returns the updated state and the subtree's `{min, max}`
leaf-x range. -/
mutual

def place : StructuredNode → PlaceState → PlaceState × Int × Int
  | .mk i _ _ depth .nil, st =>
      let x : Int := (st.leafIndex : Int) * HORIZONTAL_GAP
      let y : Int := (depth : Int) * VERTICAL_GAP
      (⟨mapSet st.positions i (x, y), st.leafIndex + 1⟩, x, x)
  | .mk i _ _ depth (.cons c cs), st =>
      match placeList (.cons c cs) st none none with
      | (st', some mn, some mx) =>
          let x := (mn + mx) / 2
          let y : Int := (depth : Int) * VERTICAL_GAP
          (⟨mapSet st'.positions i (x, y), st'.leafIndex⟩, mn, mx)
      | (st', _, _) =>
          let x : Int := (st'.leafIndex : Int) * HORIZONTAL_GAP
          let y : Int := (depth : Int) * VERTICAL_GAP
          (⟨mapSet st'.positions i (x, y), st'.leafIndex + 1⟩, x, x)

def placeList :
    SNodeList → PlaceState → Option Int → Option Int →
      PlaceState × Option Int × Option Int
  | .nil, st, mn, mx => (st, mn, mx)
  | .cons c cs, st, mn, mx =>
      match place c st with
      | (st', cmn, cmx) =>
          placeList cs st' (some (optMin mn cmn)) (some (optMax mx cmx))

end

/-- The `minX` computation of `assignPositions`: `Math.min(...allX)`
with the empty-list guard. -/
def minX (positions : List (String × Pos)) : Int :=
  match positions.map (fun e => e.2.1) with
  | [] => 0
  | x :: xs => xs.foldl min x

/-- The normalization step of `assignPositions`: shift all x by the
minimum unless it is already 0. -/
def minShift (positions : List (String × Pos)) : List (String × Pos) :=
  if minX positions ≠ 0 then
    positions.map (fun e => (e.1, (e.2.1 - minX positions, e.2.2)))
  else positions

/-- `assignPositions(root)`: run `place` from a fresh map and counter,
then shift all x so the minimum is 0 (when it is not already). -/
def assignPositions (root : StructuredNode) : List (String × Pos) :=
  minShift (place root ⟨[], 0⟩).1.positions

/-! ## Styling -/

structure Palette where
  background : String
  border : String
  color : String

def NODE_STYLE_TOKENS : JsonNodeType → Bool → Palette
  | .object, false => ⟨"#DBEAFE", "#1D4ED8", "#1E3A8A"⟩
  | .object, true => ⟨"#1E3A8A", "#3B82F6", "#DBEAFE"⟩
  | .array, false => ⟨"#FEF3C7", "#D97706", "#7C2D12"⟩
  | .array, true => ⟨"#7C2D12", "#F59E0B", "#FFFBEB"⟩
  | .primitive, false => ⟨"#F3E8FF", "#7C3AED", "#4C1D95"⟩
  | .primitive, true => ⟨"#4C1D95", "#A855F7", "#F3E8FF"⟩
  | .value, false => ⟨"#DCFCE7", "#047857", "#064E3B"⟩
  | .value, true => ⟨"#064E3B", "#34D399", "#ECFDF5"⟩

structure HighlightPalette where
  borderColor : String
  glow : String

def HIGHLIGHT_STYLE : Bool → HighlightPalette
  | false => ⟨"#F97316", "rgba(249, 115, 22, 0.28)"⟩
  | true => ⟨"#FBBF24", "rgba(251, 191, 36, 0.28)"⟩

def MINIMAP_COLORS : JsonNodeType → String
  | .object => "#1D4ED8"
  | .array => "#D97706"
  | .primitive => "#7C3AED"
  | .value => "#047857"

structure NodeStyle where
  background : String
  color : String
  borderColor : String
  borderWidth : Nat
  borderStyle : String
  padding : String
  borderRadius : Nat
  fontSize : Nat
  fontWeight : Nat
  boxShadow : String
  transition : String
  zIndex : Nat
deriving DecidableEq, Repr

def getNodeStyle (t : JsonNodeType) (isDark : Bool) (isHighlighted : Bool) : NodeStyle :=
  let palette := NODE_STYLE_TOKENS t isDark
  let highlightPalette := HIGHLIGHT_STYLE isDark
  { background := palette.background
    color := palette.color
    borderColor := if isHighlighted then highlightPalette.borderColor else palette.border
    borderWidth := if isHighlighted then 2 else 1
    borderStyle := "solid"
    padding := "8px 12px"
    borderRadius := 8
    fontSize := 12
    fontWeight := 500
    boxShadow :=
      if isHighlighted then "0 0 0 6px " ++ highlightPalette.glow else "none"
    transition := "box-shadow 0.2s ease, border-color 0.2s ease"
    zIndex := if isHighlighted then 1 else 0 }

/-! ## Graph emission -/

structure FlowNode where
  id : String
  label : String
  type : JsonNodeType
  position : Pos
  draggable : Bool
  selectable : Bool
  style : NodeStyle
deriving DecidableEq, Repr

structure FlowEdge where
  id : String
  source : String
  target : String
  type : String
  animated : Bool
deriving DecidableEq, Repr

structure FlowGraph where
  nodes : List FlowNode
  edges : List FlowEdge
deriving DecidableEq, Repr

/- The recursive `visit` closure of `buildFlowGraph`: push the node,
then for each child push the connecting edge and recurse.  Returns the
pushed nodes and edges in push order. -/
mutual

def visitNode (positions : List (String × Pos)) (isDark : Bool)
    (highlightNodeId : Option String) :
    StructuredNode → List FlowNode × List FlowEdge
  | .mk i l t d cs =>
      let position := (mapGet positions i).getD (0, (d : Int) * VERTICAL_GAP)
      let node : FlowNode :=
        ⟨i, l, t, position, false, false,
          getNodeStyle t isDark (highlightNodeId = some i)⟩
      let r := visitChildren positions isDark highlightNodeId i cs
      (node :: r.1, r.2)

def visitChildren (positions : List (String × Pos)) (isDark : Bool)
    (highlightNodeId : Option String) (parentId : String) :
    SNodeList → List FlowNode × List FlowEdge
  | .nil => ([], [])
  | .cons c cs =>
      let edge : FlowEdge :=
        ⟨"edge-" ++ parentId ++ "-" ++ c.id, parentId, c.id, "smoothstep", false⟩
      let r₁ := visitNode positions isDark highlightNodeId c
      let r₂ := visitChildren positions isDark highlightNodeId parentId cs
      (r₁.1 ++ r₂.1, (edge :: r₁.2) ++ r₂.2)

end

/-- Shift a node one `VERTICAL_GAP` up (the root-elision adjustment). -/
def shiftUp (n : FlowNode) : FlowNode :=
  { n with position := (n.position.1, n.position.2 - VERTICAL_GAP) }

/-- `buildFlowGraph(value, isDark, highlightNodeId)`. -/
def buildFlowGraph (value : Json) (isDark : Bool)
    (highlightNodeId : Option String) : FlowGraph :=
  let root := buildStructuredNode value "root" 0 "root"
  let hideRootNode := root.type ≠ .value
  let positions := assignPositions root
  let r := visitNode positions isDark highlightNodeId root
  if hideRootNode then
    { nodes := (r.1.filter (fun n => n.id ≠ root.id)).map shiftUp
      edges := r.2.filter (fun e => e.source ≠ root.id ∧ e.target ≠ root.id) }
  else
    { nodes := r.1, edges := r.2 }

/-! ## Path tokenizer -/

/-- `cursor.indexOf("]", i+1)` made structural: split a character list
at the first `]`, returning the part before it and the part after it. -/
def splitAtRBracket : List Char → Option (List Char × List Char)
  | [] => none
  | c :: cs =>
      if c = ']' then some ([], cs)
      else (splitAtRBracket cs).map (fun p => (c :: p.1, p.2))

theorem splitAtRBracket_eq_some {cs a b} (h : splitAtRBracket cs = some (a, b)) :
    cs = a ++ ']' :: b := by
  induction cs generalizing a b with
  | nil => simp [splitAtRBracket] at h
  | cons c cs ih =>
      by_cases hc : c = ']'
      · subst hc
        simp [splitAtRBracket] at h
        simp [← h.1, ← h.2]
      · simp only [splitAtRBracket, if_neg hc, Option.map_eq_some'] at h
        obtain ⟨⟨a', b'⟩, hp, he⟩ := h
        cases he
        simp [ih hp]

/-- The regex test `/^-?\d+$/`. -/
def isIntLitSeg : List Char → Bool
  | '-' :: ds => !ds.isEmpty && ds.all isDigitChar
  | ds => !ds.isEmpty && ds.all isDigitChar

/-- Value of a segment matching `/^-?\d+$/` under `Number.parseInt`. -/
def intLitValue : List Char → Int
  | '-' :: ds => -(digitsToNat ds : Int)
  | ds => (digitsToNat ds : Int)

def quoteChar : Char := Char.ofNat 34
def apostChar : Char := Char.ofNat 39

/-- The `while (index < cursor.length)` scan of `tokenizeJsonPath`:
skip `.`, consume a bracket segment (quoted string or integer literal),
or consume a bare segment up to the next `.`/`[` (trimmed, must be
nonempty). -/
def tokenLoop (cs : List Char) : Option (List String) :=
  match cs with
  | [] => some []
  | c :: rest =>
      if c = '.' then tokenLoop rest
      else if c = '[' then
        match hsp : splitAtRBracket rest with
        | none => none
        | some (seg₀, rest') =>
            match jsTrimList seg₀ with
            | [] => none
            | c₁ :: cs₁ =>
                if (c₁ = apostChar ∨ c₁ = quoteChar) ∧ (c₁ :: cs₁).getLast (by simp) = c₁ then
                  (tokenLoop rest').map (fun ts => String.mk cs₁.dropLast :: ts)
                else if isIntLitSeg (c₁ :: cs₁) then
                  (tokenLoop rest').map
                    (fun ts => intToString (intLitValue (c₁ :: cs₁)) :: ts)
                else none
      else
        let tokChars := (c :: rest).takeWhile (fun ch => ch ≠ '.' ∧ ch ≠ '[')
        let rest₂ := (c :: rest).dropWhile (fun ch => ch ≠ '.' ∧ ch ≠ '[')
        match jsTrimList tokChars with
        | [] => none
        | t₁ :: ts₁ => (tokenLoop rest₂).map (fun ts => String.mk (t₁ :: ts₁) :: ts)
  termination_by cs.length
  decreasing_by
  · simp
  · have := splitAtRBracket_eq_some hsp
    subst this
    simp
    omega
  · simp only [List.dropWhile_cons]
    split
    · have := (List.dropWhile_sublist (l := cs)
        (fun ch => decide (ch ≠ '.' ∧ ch ≠ '['))).length_le
      simp only [List.length_cons]
      omega
    · simp_all

/-- `tokenizeJsonPath`: trim, accept `$`/`$.` prefixes, then scan. -/
def tokenizeJsonPath (jsonPath : String) : Option (List String) :=
  match jsTrimList jsonPath.data with
  | [] => some []
  | '$' :: r =>
      match r with
      | '.' :: r₂ => tokenLoop r₂
      | _ => tokenLoop r
  | cs => tokenLoop cs

/-! ## Path resolver -/

structure JsonPathResolution where
  nodeId : String
  nodeType : JsonNodeType
deriving DecidableEq, Repr

/-- The token loop of `resolveNodeIdForJsonPath`: walk the value,
arrays by `parseInt`-parsed index, objects by own key, extending the
dotted path; `none` models the early `return null`s. -/
def resolveSteps : Json → List String → String → Option (Json × String)
  | current, [], path => some (current, path)
  | current, tok :: rest, path =>
      match current with
      | .arr elems =>
          match jsParseInt tok with
          | none => none
          | some n =>
              if n < 0 then none
              else if (elems.length : Int) ≤ n then none
              else
                resolveSteps (elems.getD n.toNat Json.null) rest
                  (path ++ "." ++ intToString n)
      | .obj fields =>
          if fields.hasOwn tok then
            resolveSteps ((fields.get? tok).getD Json.null) rest (path ++ "." ++ tok)
          else none
      | _ => none

/-- The epilogue of `resolveNodeIdForJsonPath`: primitives resolve to
the synthetic `.value` leaf. -/
def finishResolve : Option (Json × String) → Option JsonPathResolution
  | none => none
  | some (current, path) =>
      if detectNodeType current = .primitive then some ⟨path ++ ".value", .value⟩
      else some ⟨path, detectNodeType current⟩

def resolveNodeIdForJsonPath (value : Json) (jsonPath : String) :
    Option JsonPathResolution :=
  match tokenizeJsonPath jsonPath with
  | none => none
  | some [] =>
      if detectNodeType value = .primitive then some ⟨"root", .value⟩ else none
  | some (t :: ts) => finishResolve (resolveSteps value (t :: ts) "root")

/-! ## Spec-side access tokens

`Tok` is the abstract way to reach a value: object entries by own key,
array elements by index.  `renderPath` (modelled from the spec, which
writes paths like `$.tags[0]`; the repository has no such function)
prints a token list in the dotted/bracketed syntax the tokenizer
accepts. -/

inductive Tok where
  | key : String → Tok
  | idx : Nat → Tok
deriving DecidableEq, Repr

/-- Descend through a value along a token list. -/
def jsonLookup : Json → List Tok → Option Json
  | v, [] => some v
  | .obj fields, .key k :: ts =>
      match fields.get? k with
      | some w => jsonLookup w ts
      | none => none
  | .arr elems, .idx i :: ts =>
      match elems.get? i with
      | some w => jsonLookup w ts
      | none => none
  | _, _ => none

/-- Modelled from the spec: the path-expression rendering of a token
sequence, in the `$.key[0]` style of the spec's examples.  The
repository's source contains no such function (paths arrive as user
input), so it is taken from the spec's tokenizer grammar. -/
def renderTok : Tok → String
  | .key k => "." ++ k
  | .idx i => "[" ++ natToString i ++ "]"

def renderToks : List Tok → String
  | [] => ""
  | t :: ts => renderTok t ++ renderToks ts

def renderPath (ts : List Tok) : String :=
  "$" ++ renderToks ts

/-- The token string the tokenizer should produce for a `Tok`. -/
def tokStr : Tok → String
  | .key k => k
  | .idx i => natToString i

/-- The key argument the builder receives for the node a `Tok` selects. -/
def tokKeyStr : Tok → String
  | .key k => k
  | .idx i => "[" ++ natToString i ++ "]"

/-- The id suffix the builder appends for a token sequence. -/
def pathSuffix : List Tok → String
  | [] => ""
  | t :: ts => "." ++ tokStr t ++ pathSuffix ts

/-- The builder key of the last token (or the starting key when empty). -/
def keyFor (key : String) (ts : List Tok) : String :=
  ts.foldl (fun _ t => tokKeyStr t) key

/-- A key token the tokenizer transports verbatim in a `$.k` rendering:
nonempty, untouched by trim, and free of the two characters at which a
bare segment stops (`.` starts a new segment, `[` a bracket segment).
Any other character — including `]` — passes through a bare segment. -/
def GoodKey (k : String) : Prop :=
  k ≠ "" ∧ jsTrimList k.data = k.data ∧
    ∀ c ∈ k.data, c ≠ '.' ∧ c ≠ '['

/-- Walk the structured tree in lockstep with the value: for each token
pick the child the builder created for that entry/element. -/
def childFor : SNodeList → JsonFields → String → Option (StructuredNode × Json)
  | .cons c cs, .cons k' v fs, k =>
      if k' = k then some (c, v) else childFor cs fs k
  | _, _, _ => none

def childForIdx : SNodeList → JsonList → Nat → Option (StructuredNode × Json)
  | .cons c _, .cons v _, 0 => some (c, v)
  | .cons _ cs, .cons _ vs, i + 1 => childForIdx cs vs i
  | _, _, _ => none

/-- The structured-tree node the builder assigned to the value a token
sequence reaches. -/
def nodeFor : StructuredNode → Json → List Tok → Option StructuredNode
  | n, _, [] => some n
  | n, .obj fields, .key k :: ts =>
      match childFor n.children fields k with
      | some (c, w) => nodeFor c w ts
      | none => none
  | n, .arr elems, .idx i :: ts =>
      match childForIdx n.children elems i with
      | some (c, w) => nodeFor c w ts
      | none => none
  | _, _, _ => none

/-- Shape invariant of built nodes: `value` nodes are childless and
`primitive` nodes carry exactly the one synthetic `value` leaf. -/
def nodeShapeInv (n : StructuredNode) : Prop :=
  (n.type = .value → n.children = .nil) ∧
  (n.type = .primitive →
    ∃ c, n.children = .cons c .nil ∧ c.type = .value ∧ c.children = .nil)

/-- How the emitted node for a structured node may depend on the
highlight id: all payload fields agree; a node whose id is not the
highlight is identical, and for the highlighted node the style may
change only in border color, border width, box shadow and z-index. -/
def highlightMatch (H : String) (n₁ n₀ : FlowNode) : Prop :=
  n₁.id = n₀.id ∧ n₁.label = n₀.label ∧ n₁.type = n₀.type ∧
  n₁.position = n₀.position ∧ n₁.draggable = n₀.draggable ∧
  n₁.selectable = n₀.selectable ∧
  (n₁.id ≠ H → n₁ = n₀) ∧
  (n₁.style.background = n₀.style.background ∧ n₁.style.color = n₀.style.color ∧
    n₁.style.borderStyle = n₀.style.borderStyle ∧ n₁.style.padding = n₀.style.padding ∧
    n₁.style.borderRadius = n₀.style.borderRadius ∧ n₁.style.fontSize = n₀.style.fontSize ∧
    n₁.style.fontWeight = n₀.style.fontWeight ∧ n₁.style.transition = n₀.style.transition)

/-! ## Basic string, character and digit lemmas -/

theorem str_ext {a b : String} (h : a.data = b.data) : a = b := by
  cases a; cases b; exact congrArg String.mk h

theorem takeWhile_eq_self_of_all {p : Char → Bool} {l : List Char}
    (h : ∀ c ∈ l, p c = true) : l.takeWhile p = l := by
  induction l with
  | nil => rfl
  | cons c r ih =>
      rw [List.takeWhile_cons, if_pos (h c (by simp))]
      simp only [List.cons.injEq, true_and]
      exact ih fun c hc => h c (by simp [hc])

theorem dropWhile_eq_self_of_all {p : Char → Bool} {l : List Char}
    (h : ∀ c ∈ l, p c = false) : l.dropWhile p = l := by
  cases l with
  | nil => rfl
  | cons c r => exact List.dropWhile_cons_of_neg (by simp [h c (by simp)])

theorem jsTrimList_eq_self {l : List Char}
    (h : ∀ c ∈ l, isJsWhitespace c = false) : jsTrimList l = l := by
  unfold jsTrimList
  rw [dropWhile_eq_self_of_all h,
    dropWhile_eq_self_of_all (fun c hc => h c (List.mem_reverse.mp hc)),
    List.reverse_reverse]

theorem digitChar_toNat {d : Nat} (h : d < 10) : (digitChar d).toNat = 48 + d := by
  interval_cases d <;> decide

theorem isDigitChar_digitChar {d : Nat} (h : d < 10) : isDigitChar (digitChar d) = true := by
  simp [isDigitChar, digitChar_toNat h]; omega

/-- The facts about decimal digit characters used throughout: they are
not separators, signs, quotes or whitespace. -/
theorem digit_not_special {c : Char} (h : isDigitChar c = true) :
    c ≠ '.' ∧ c ≠ '[' ∧ c ≠ ']' ∧ c ≠ '-' ∧ c ≠ '+' ∧ c ≠ apostChar ∧ c ≠ quoteChar ∧
      c ≠ '$' ∧ isJsWhitespace c = false := by
  simp only [isDigitChar, Bool.and_eq_true, decide_eq_true_eq] at h
  refine ⟨fun he => absurd h (by subst he; decide),
    fun he => absurd h (by subst he; decide),
    fun he => absurd h (by subst he; decide),
    fun he => absurd h (by subst he; decide),
    fun he => absurd h (by subst he; decide),
    fun he => absurd h (by subst he; decide),
    fun he => absurd h (by subst he; decide),
    fun he => absurd h (by subst he; decide), ?_⟩
  simp only [isJsWhitespace, Bool.or_eq_false_iff, decide_eq_false_iff_not]
  refine ⟨⟨⟨⟨⟨⟨⟨⟨⟨?_, ?_⟩, ?_⟩, ?_⟩, ?_⟩, ?_⟩, ?_⟩, ?_⟩, ?_⟩, ?_⟩ <;>
    exact fun he => absurd h (by subst he; decide)

theorem natToDigits_ne_nil (n : Nat) : natToDigits n ≠ [] := by
  rw [natToDigits]
  split <;> simp

theorem natToDigits_all_digits (n : Nat) : ∀ c ∈ natToDigits n, isDigitChar c = true := by
  induction n using Nat.strong_induction_on with
  | _ n ih =>
      rw [natToDigits]
      split
      · intro c hc
        rw [List.mem_singleton] at hc
        subst hc
        exact isDigitChar_digitChar (by omega)
      · intro c hc
        rw [List.mem_append] at hc
        rcases hc with hc | hc
        · exact ih (n / 10) (Nat.div_lt_self (by omega) (by omega)) c hc
        · rw [List.mem_singleton] at hc
          subst hc
          exact isDigitChar_digitChar (Nat.mod_lt _ (by omega))

theorem digitsToNat_natToDigits (n : Nat) : digitsToNat (natToDigits n) = n := by
  induction n using Nat.strong_induction_on with
  | _ n ih =>
      rw [natToDigits]
      split
      · simp only [digitsToNat, List.foldl]
        rw [digitChar_toNat (by omega)]
        omega
      · unfold digitsToNat
        rw [List.foldl_append]
        have := ih (n / 10) (Nat.div_lt_self (by omega) (by omega))
        unfold digitsToNat at this
        rw [this]
        simp [digitChar_toNat (Nat.mod_lt n (by omega))]
        omega

theorem natToString_inj {a b : Nat} (h : natToString a = natToString b) : a = b := by
  have : (natToString a).data = (natToString b).data := by rw [h]
  simp only [natToString] at this
  calc a = digitsToNat (natToDigits a) := (digitsToNat_natToDigits a).symm
    _ = digitsToNat (natToDigits b) := by rw [this]
    _ = b := digitsToNat_natToDigits b

theorem jsParseInt_digits {l : List Char} (hne : l ≠ [])
    (hd : ∀ c ∈ l, isDigitChar c = true) :
    jsParseInt ⟨l⟩ = some (digitsToNat l : Int) := by
  cases l with
  | nil => exact absurd rfl hne
  | cons c r =>
      have hcd := hd c (by simp)
      have hspec := digit_not_special hcd
      show jsParseInt ⟨c :: r⟩ = _
      unfold jsParseInt
      have hdrop : (c :: r).dropWhile isJsWhitespace = c :: r :=
        List.dropWhile_cons_of_neg (by simp [hspec.2.2.2.2.2.2.2.2])
      simp only [hdrop]
      split
      · rename_i heq
        rw [List.cons.injEq] at heq
        exact absurd heq.1 hspec.2.2.2.1
      · rename_i heq
        rw [List.cons.injEq] at heq
        exact absurd heq.1 hspec.2.2.2.2.1
      · rw [takeWhile_eq_self_of_all hd]
        simp

theorem jsParseInt_natToString (n : Nat) : jsParseInt (natToString n) = some (n : Int) := by
  rw [natToString, jsParseInt_digits (natToDigits_ne_nil n) (natToDigits_all_digits n),
    digitsToNat_natToDigits]

/-! ## Shape of the structured tree (claim C4) -/

/-- Unfolding equation for the builder's primitive arm. -/
theorem buildStructuredNode_prim (v : Json) (hv : detectNodeType v = .primitive)
    (key : String) (dep : Nat) (p : String) :
    buildStructuredNode v key dep p =
      if key = "root" then .mk p (formatPrimitive v) .value dep .nil
      else
        .mk p key .primitive dep
          (.cons (.mk (p ++ ".value") (formatPrimitive v) .value (dep + 1) .nil) .nil) := by
  cases v <;> first | rfl | simp [detectNodeType] at hv

theorem primTree_shape (v : Json) (hv : detectNodeType v = .primitive)
    (key : String) (dep : Nat) (p : String) :
    ∀ n ∈ allNodes (buildStructuredNode v key dep p), nodeShapeInv n := by
  intro n hn
  rw [buildStructuredNode_prim v hv] at hn
  split at hn
  · simp only [allNodes, allNodesL, List.mem_singleton] at hn
    subst hn
    exact ⟨fun _ => rfl, fun h => JsonNodeType.noConfusion h⟩
  · simp only [allNodes, allNodesL, List.mem_cons, List.append_nil,
      List.not_mem_nil, or_false] at hn
    rcases hn with hn | hn <;> subst hn
    · exact ⟨fun h => JsonNodeType.noConfusion h, fun _ => ⟨_, rfl, rfl, rfl⟩⟩
    · exact ⟨fun _ => rfl, fun h => JsonNodeType.noConfusion h⟩

mutual

theorem buildNode_shape :
    ∀ (v : Json) (key : String) (dep : Nat) (p : String),
      ∀ n ∈ allNodes (buildStructuredNode v key dep p), nodeShapeInv n
  | .null, key, dep, p => primTree_shape .null rfl key dep p
  | .boolean b, key, dep, p => primTree_shape (.boolean b) rfl key dep p
  | .num m, key, dep, p => primTree_shape (.num m) rfl key dep p
  | .str s, key, dep, p => primTree_shape (.str s) rfl key dep p
  | .arr elems, key, dep, p => by
      intro n hn
      simp only [buildStructuredNode, allNodes, List.mem_cons] at hn
      rcases hn with hn | hn
      · subst hn
        exact ⟨fun h => JsonNodeType.noConfusion h, fun h => JsonNodeType.noConfusion h⟩
      · exact buildArr_shape elems 0 dep p n hn
  | .obj fields, key, dep, p => by
      intro n hn
      simp only [buildStructuredNode, allNodes, List.mem_cons] at hn
      rcases hn with hn | hn
      · subst hn
        exact ⟨fun h => JsonNodeType.noConfusion h, fun h => JsonNodeType.noConfusion h⟩
      · exact buildObj_shape fields dep p n hn

theorem buildObj_shape :
    ∀ (fs : JsonFields) (dep : Nat) (p : String),
      ∀ n ∈ allNodesL (buildObjChildren fs dep p), nodeShapeInv n
  | .nil, dep, p => by
      intro n hn
      simp [buildObjChildren, allNodesL] at hn
  | .cons k v fs, dep, p => by
      intro n hn
      rw [buildObjChildren] at hn
      simp only [allNodesL, List.mem_append] at hn
      rcases hn with hn | hn
      · exact buildNode_shape v k (dep + 1) (p ++ "." ++ k) n hn
      · exact buildObj_shape fs dep p n hn

theorem buildArr_shape :
    ∀ (es : JsonList) (i dep : Nat) (p : String),
      ∀ n ∈ allNodesL (buildArrChildren es i dep p), nodeShapeInv n
  | .nil, i, dep, p => by
      intro n hn
      simp [buildArrChildren, allNodesL] at hn
  | .cons v es, i, dep, p => by
      intro n hn
      rw [buildArrChildren] at hn
      simp only [allNodesL, List.mem_append] at hn
      rcases hn with hn | hn
      · exact buildNode_shape v _ (dep + 1) _ n hn
      · exact buildArr_shape es (i + 1) dep p n hn

end

theorem buildObjChildren_length :
    ∀ (fs : JsonFields) (dep : Nat) (p : String),
      (buildObjChildren fs dep p).length = fs.keys.length
  | .nil, _, _ => rfl
  | .cons k v fs, dep, p => by
      simp [buildObjChildren, SNodeList.length, JsonFields.keys,
        buildObjChildren_length fs dep p]

theorem buildArrChildren_length :
    ∀ (es : JsonList) (i dep : Nat) (p : String),
      (buildArrChildren es i dep p).length = es.length
  | .nil, _, _, _ => rfl
  | .cons v es, i, dep, p => by
      simp [buildArrChildren, SNodeList.length, JsonList.length,
        buildArrChildren_length es (i + 1) dep p]

/-! ## Claim theorems: C4, C8, C9 -/

/-- Claim C4 (amended).  The original claim — every childless node has
kind `primitive` or `value` — fails on empty containers: the node built
for an empty object or array has the container kind and no children.
What holds is: `value` nodes are childless, `primitive` nodes have
exactly one child (the synthetic `value` leaf, hence are never
childless), and a container node's child count equals its entry/element
count (zero included), so the childless nodes are exactly the `value`
nodes and the empty-container nodes. -/
theorem claim_C4 :
    (∀ (v : Json) (key : String) (dep : Nat) (p : String),
        ∀ n ∈ allNodes (buildStructuredNode v key dep p),
          (n.type = .value → n.children = .nil) ∧
          (n.type = .primitive →
            ∃ c, n.children = .cons c .nil ∧ c.type = .value ∧ c.children = .nil) ∧
          (n.children = .nil → n.type ≠ .primitive)) ∧
    (∀ (fs : JsonFields) (key : String) (dep : Nat) (p : String),
        (buildStructuredNode (.obj fs) key dep p).children.length = fs.keys.length) ∧
    (∀ (es : JsonList) (key : String) (dep : Nat) (p : String),
        (buildStructuredNode (.arr es) key dep p).children.length = es.length) := by
  refine ⟨fun v key dep p n hn => ?_,
    fun fs key dep p => ?_, fun es key dep p => ?_⟩
  · obtain ⟨h₁, h₂⟩ := buildNode_shape v key dep p n hn
    refine ⟨h₁, h₂, fun hnil hprim => ?_⟩
    obtain ⟨c, hc, -⟩ := h₂ hprim
    rw [hnil] at hc
    exact SNodeList.noConfusion hc
  · exact buildObjChildren_length fs dep p
  · exact buildArrChildren_length es 0 dep p

/-- Claim C4, witness: the invariant instantiated on
`{"a": 1, "b": []}`. -/
theorem claim_C4_witness :
    (∀ n ∈ allNodes (buildStructuredNode
        (Json.obj (.cons "a" (.num 1) (.cons "b" (.arr .nil) .nil))) "root" 0 "root"),
      (n.type = .value → n.children = .nil) ∧
      (n.type = .primitive →
        ∃ c, n.children = .cons c .nil ∧ c.type = .value ∧ c.children = .nil) ∧
      (n.children = .nil → n.type ≠ .primitive)) ∧
    (buildStructuredNode
        (Json.obj (.cons "a" (.num 1) (.cons "b" (.arr .nil) .nil))) "root" 0
        "root").children.length = 2 :=
  ⟨fun n hn => claim_C4.1 _ "root" 0 "root" n hn,
   claim_C4.2.1 (.cons "a" (.num 1) (.cons "b" (.arr .nil) .nil)) "root" 0 "root"⟩

/-- Claim C4, counterexample to the original wording: the tree built
for the empty object consists of a single childless node of kind
`object`, not `primitive` or `value`. -/
theorem claim_C4_cex :
    (buildStructuredNode (Json.obj .nil) "root" 0 "root").children = .nil ∧
    (buildStructuredNode (Json.obj .nil) "root" 0 "root").type = .object ∧
    (buildStructuredNode (Json.obj .nil) "root" 0 "root").type ≠ .primitive ∧
    (buildStructuredNode (Json.obj .nil) "root" 0 "root").type ≠ .value :=
  ⟨rfl, rfl, by decide, by decide⟩

/-- Claim C8: `buildFlowGraph` is a pure function of its three inputs —
calling it twice with equal inputs yields structurally identical
graphs (ids, labels, positions, styles and edges, in the same order);
in the embedding the per-call layout counter is threaded explicitly
from its fresh initial state, so no state survives between calls. -/
theorem claim_C8 (v₁ v₂ : Json) (d₁ d₂ : Bool) (h₁ h₂ : Option String)
    (hv : v₁ = v₂) (hd : d₁ = d₂) (hh : h₁ = h₂) :
    buildFlowGraph v₁ d₁ h₁ = buildFlowGraph v₂ d₂ h₂ := by
  subst hv; subst hd; subst hh; rfl

/-- Claim C8, witness. -/
theorem claim_C8_witness :
    buildFlowGraph (Json.obj (.cons "a" (.num 1) .nil)) true (some "root.a") =
      buildFlowGraph (Json.obj (.cons "a" (.num 1) .nil)) true (some "root.a") :=
  claim_C8 _ _ _ _ _ _ rfl rfl rfl

/-- Claim C9: an empty object or empty array at the root builds a
single childless container node, which root elision then removes, so
the emitted graph has no nodes and no edges. -/
theorem claim_C9 (isDark : Bool) (hl : Option String) :
    buildFlowGraph (Json.obj .nil) isDark hl = ⟨[], []⟩ ∧
    buildFlowGraph (Json.arr .nil) isDark hl = ⟨[], []⟩ :=
  ⟨rfl, rfl⟩

/-! ## Claim C5: empty segments in path expressions -/

theorem tokenLoop_dot (cs : List Char) : tokenLoop ('.' :: cs) = tokenLoop cs := by
  rw [tokenLoop]
  simp

/-- Claim C5 (amended).  The original claim — a bare `.`, `a..b` or a
trailing `a.` fails tokenization and makes the resolver return null —
does not match the scanner, which silently *skips* `.` characters:
empty segments between dots simply produce no token.  `"."` tokenizes
to `[]` (so it resolves exactly like the empty expression, via the
root-primitive rule), `"a..b"` to `["a", "b"]`, `"a."` to `["a"]`.
Tokenization of a bare segment fails only when the segment trims to
nothing while containing characters, i.e. a whitespace-only segment
such as in `"a. .b"`. -/
theorem claim_C5 :
    (∀ cs : List Char, tokenLoop ('.' :: cs) = tokenLoop cs) ∧
    tokenizeJsonPath "." = some [] ∧
    tokenizeJsonPath "a..b" = some ["a", "b"] ∧
    tokenizeJsonPath "a." = some ["a"] ∧
    (∀ v : Json, resolveNodeIdForJsonPath v "." = resolveNodeIdForJsonPath v "") ∧
    tokenizeJsonPath "a. .b" = none := by
  refine ⟨tokenLoop_dot, ?_, ?_, ?_, fun v => ?_, ?_⟩
  · simp [tokenizeJsonPath, jsTrimList, isJsWhitespace, tokenLoop]
  · simp [tokenizeJsonPath, jsTrimList, isJsWhitespace, tokenLoop]
  · simp [tokenizeJsonPath, jsTrimList, isJsWhitespace, tokenLoop]
  · have h₁ : tokenizeJsonPath "." = some [] := by
      simp [tokenizeJsonPath, jsTrimList, isJsWhitespace, tokenLoop]
    have h₂ : tokenizeJsonPath "" = some [] := by
      simp [tokenizeJsonPath, jsTrimList, isJsWhitespace]
    simp [resolveNodeIdForJsonPath, h₁, h₂]
  · simp [tokenizeJsonPath, jsTrimList, isJsWhitespace, tokenLoop]

/-- Claim C5, witness (for the universally quantified parts): the
dot-skipping equation at a concrete scan state, and the resolver
agreement at a concrete value. -/
theorem claim_C5_witness :
    tokenLoop ('.' :: 'a' :: []) = tokenLoop ('a' :: []) ∧
    resolveNodeIdForJsonPath (Json.num 7) "." = resolveNodeIdForJsonPath (Json.num 7) "" :=
  ⟨claim_C5.1 ('a' :: []), claim_C5.2.2.2.2.1 (Json.num 7)⟩

/-- Claim C5, counterexample to the original wording: `"a..b"` does not
fail tokenization, and the resolver resolves it successfully on
`{"a": {"b": 1}}` instead of returning null. -/
theorem claim_C5_cex :
    tokenizeJsonPath "a..b" = some ["a", "b"] ∧
    resolveNodeIdForJsonPath (Json.obj (.cons "a" (.obj (.cons "b" (.num 1) .nil)) .nil))
        "a..b" = some ⟨"root.a.b.value", .value⟩ := by
  constructor
  · simp [tokenizeJsonPath, jsTrimList, isJsWhitespace, tokenLoop]
  · have h : tokenizeJsonPath "a..b" = some ["a", "b"] := by
      simp [tokenizeJsonPath, jsTrimList, isJsWhitespace, tokenLoop]
    simp [resolveNodeIdForJsonPath, h, resolveSteps, JsonFields.hasOwn, JsonFields.get?,
      finishResolve, detectNodeType]

/-! ## Claim C6: array steps during resolution -/

/-- Claim C6 (amended).  The original claim requires the token to *be*
a non-negative in-range integer, with any non-numeric token producing
null; but the code indexes with `Number.parseInt`, which parses the
longest leading sign-and-digits run, so a token such as `"1x"`
(producible via a quoted bracket segment) descends to element 1.  What
holds: when the current value is an array, the head token is fed to
`parseInt`; if that yields no number, a negative number, or one at
least the array length, resolution returns null, and otherwise it
descends to the element at the parsed index and extends the path with
`"." ++` the canonical decimal of that index.  (The spec's own example
stands: `items[abc]` fails — in the tokenizer — for every value.) -/
theorem claim_C6 (es : JsonList) (expr : String) (tok : String) (rest : List String)
    (h : tokenizeJsonPath expr = some (tok :: rest)) :
    (resolveNodeIdForJsonPath (Json.arr es) expr =
      match jsParseInt tok with
      | none => none
      | some n =>
          if 0 ≤ n ∧ n < (es.length : Int) then
            finishResolve
              (resolveSteps (es.getD n.toNat Json.null) rest ("root" ++ "." ++ intToString n))
          else none) ∧
    (∀ v : Json, resolveNodeIdForJsonPath v "items[abc]" = none) := by
  constructor
  · simp only [resolveNodeIdForJsonPath, h]
    rw [resolveSteps]
    cases hp : jsParseInt tok with
    | none => rfl
    | some n =>
        dsimp only
        by_cases h₀ : n < 0
        · rw [if_pos h₀]
          rw [if_neg (by omega)]
          rfl
        · rw [if_neg h₀]
          by_cases h₁ : (es.length : Int) ≤ n
          · rw [if_pos h₁, if_neg (by omega)]
            rfl
          · rw [if_neg h₁, if_pos (by omega)]
  · intro v
    have ht : tokenizeJsonPath "items[abc]" = none := by
      simp [tokenizeJsonPath, jsTrimList, isJsWhitespace, tokenLoop, splitAtRBracket,
        apostChar, quoteChar, isIntLitSeg, isDigitChar]
    simp [resolveNodeIdForJsonPath, ht]

/-- Claim C6, witness: the array rule applied to `["a"]` with the
expression `"[0]"`. -/
theorem claim_C6_witness :
    (resolveNodeIdForJsonPath (Json.arr (.cons (.str "a") .nil)) "[0]" =
      match jsParseInt "0" with
      | none => none
      | some n =>
          if 0 ≤ n ∧ n < ((JsonList.cons (.str "a") .nil).length : Int) then
            finishResolve
              (resolveSteps ((JsonList.cons (.str "a") .nil).getD n.toNat Json.null) []
                ("root" ++ "." ++ intToString n))
          else none) ∧
    (∀ v : Json, resolveNodeIdForJsonPath v "items[abc]" = none) :=
  claim_C6 (.cons (.str "a") .nil) "[0]" "0" []
    (by simp [tokenizeJsonPath, jsTrimList, isJsWhitespace, tokenLoop, splitAtRBracket,
      apostChar, quoteChar, isIntLitSeg, isDigitChar, intLitValue, digitsToNat,
      intToString, natToString, natToDigits, digitChar])

/-- Claim C6, counterexample to the original wording: on `["a", "b"]`
the token `"1x"` — not an integer — does not make resolution fail; it
descends to element 1 because `parseInt("1x")` is 1. -/
theorem claim_C6_cex :
    resolveNodeIdForJsonPath (Json.arr (.cons (.str "a") (.cons (.str "b") .nil)))
        "$[\"1x\"]" = some ⟨"root.1.value", .value⟩ ∧
    isIntLitSeg "1x".data = false := by
  constructor
  · have h : tokenizeJsonPath "$[\"1x\"]" = some ["1x"] := by
      simp [tokenizeJsonPath, jsTrimList, isJsWhitespace, tokenLoop, splitAtRBracket,
        apostChar, quoteChar]
    have hp : jsParseInt "1x" = some 1 := by
      simp [jsParseInt, isJsWhitespace, isDigitChar, digitsToNat]
    simp [resolveNodeIdForJsonPath, h, resolveSteps, hp, JsonList.length, JsonList.getD,
      JsonList.get?, finishResolve, detectNodeType, intToString, natToString, natToDigits,
      digitChar]
  · decide

/-! ## The id discipline of the structured tree

Every id the builder assigns is the prefix path followed by the
dot-joined segment list of the access tokens; `tokLists` enumerates
those segment lists in the builder's order. -/

theorem string_append_cancel {p a b : String} (h : p ++ a = p ++ b) : a = b := by
  have hd : p.data ++ a.data = p.data ++ b.data := by
    rw [← String.data_append, ← String.data_append, h]
  exact str_ext (List.append_cancel_left hd)

theorem append_ne_self_of_ne_nil {p s : String} (h : s.data ≠ []) : p ++ s ≠ p := by
  intro he
  have hd : (p ++ s).data = p.data := congrArg String.data he
  rw [String.data_append] at hd
  have := congrArg List.length hd
  simp only [List.length_append] at this
  exact h (List.eq_nil_of_length_eq_zero (by omega))

theorem joinSegs_cons_data (t : String) (ts : List String) :
    (joinSegs (t :: ts)).data = '.' :: (t.data ++ (joinSegs ts).data) := by
  show (("." ++ t) ++ joinSegs ts).data = _
  rw [String.data_append, String.data_append]
  rfl

theorem joinSegs_shape (ts : List String) :
    (joinSegs ts).data = [] ∨ ∃ x, (joinSegs ts).data = '.' :: x := by
  cases ts with
  | nil => exact Or.inl rfl
  | cons t ts => exact Or.inr ⟨_, joinSegs_cons_data t ts⟩

theorem primTree_tokLists (v : Json) (hv : detectNodeType v = .primitive) (key : String) :
    tokLists v key = if key = "root" then [[]] else [[], ["value"]] := by
  cases v <;> first | rfl | simp [detectNodeType] at hv

theorem primTree_ids (v : Json) (hv : detectNodeType v = .primitive)
    (key : String) (dep : Nat) (p : String) :
    allIds (buildStructuredNode v key dep p) =
      (tokLists v key).map (fun ts => p ++ joinSegs ts) := by
  rw [buildStructuredNode_prim v hv, primTree_tokLists v hv]
  by_cases hk : key = "root"
  · rw [if_pos hk, if_pos hk]
    simp [allIds, allNodes, allNodesL, joinSegs, StructuredNode.id]
  · rw [if_neg hk, if_neg hk]
    have hval : ("." : String) ++ "value" ++ "" = ".value" := rfl
    simp [allIds, allNodes, allNodesL, joinSegs, StructuredNode.id, hval]

mutual

theorem allIds_build : ∀ (v : Json) (key : String) (dep : Nat) (p : String),
    allIds (buildStructuredNode v key dep p) =
      (tokLists v key).map (fun ts => p ++ joinSegs ts)
  | .null, key, dep, p => primTree_ids .null rfl key dep p
  | .boolean b, key, dep, p => primTree_ids (.boolean b) rfl key dep p
  | .num m, key, dep, p => primTree_ids (.num m) rfl key dep p
  | .str s, key, dep, p => primTree_ids (.str s) rfl key dep p
  | .obj fields, key, dep, p => by
      show allIds (.mk p _ .object dep (buildObjChildren fields dep p)) =
        (([] : List String) :: tokListsF fields).map (fun ts => p ++ joinSegs ts)
      simp only [allIds, allNodes, List.map_cons]
      refine congrArg₂ List.cons ?_ ?_
      · show p = p ++ joinSegs []
        rw [joinSegs, String.append_empty]
      · exact allIds_buildF fields dep p
  | .arr elems, key, dep, p => by
      show allIds (.mk p _ .array dep (buildArrChildren elems 0 dep p)) =
        (([] : List String) :: tokListsL elems 0).map (fun ts => p ++ joinSegs ts)
      simp only [allIds, allNodes, List.map_cons]
      refine congrArg₂ List.cons ?_ ?_
      · show p = p ++ joinSegs []
        rw [joinSegs, String.append_empty]
      · exact allIds_buildL elems 0 dep p

theorem allIds_buildF : ∀ (fs : JsonFields) (dep : Nat) (p : String),
    (allNodesL (buildObjChildren fs dep p)).map StructuredNode.id =
      (tokListsF fs).map (fun ts => p ++ joinSegs ts)
  | .nil, _, _ => rfl
  | .cons k v fs, dep, p => by
      rw [buildObjChildren, tokListsF]
      simp only [allNodesL, List.map_append]
      refine congrArg₂ List.append ?_ (allIds_buildF fs dep p)
      have h₁ := allIds_build v k (dep + 1) (p ++ "." ++ k)
      rw [allIds] at h₁
      rw [h₁, List.map_map]
      refine List.map_congr_left fun ts _ => ?_
      show (p ++ "." ++ k) ++ joinSegs ts = p ++ ("." ++ k ++ joinSegs ts)
      simp [String.append_assoc]

theorem allIds_buildL : ∀ (es : JsonList) (i dep : Nat) (p : String),
    (allNodesL (buildArrChildren es i dep p)).map StructuredNode.id =
      (tokListsL es i).map (fun ts => p ++ joinSegs ts)
  | .nil, _, _, _ => rfl
  | .cons v es, i, dep, p => by
      rw [buildArrChildren, tokListsL]
      simp only [allNodesL, List.map_append]
      refine congrArg₂ List.append ?_ (allIds_buildL es (i + 1) dep p)
      have h₁ := allIds_build v ("[" ++ natToString i ++ "]") (dep + 1)
        (p ++ "." ++ natToString i)
      rw [allIds] at h₁
      rw [h₁, List.map_map]
      refine List.map_congr_left fun ts _ => ?_
      show (p ++ "." ++ natToString i) ++ joinSegs ts =
        p ++ ("." ++ natToString i ++ joinSegs ts)
      simp [String.append_assoc]

end

/-! ## Segment lists: shapes, dot-freeness, distinctness -/

theorem tokListsF_shape : ∀ (fs : JsonFields), ∀ ts ∈ tokListsF fs,
    ∃ k tl, ts = k :: tl ∧ k ∈ fs.keys
  | .nil => by intro ts h; simp [tokListsF] at h
  | .cons k v fs => by
      intro ts h
      rw [tokListsF] at h
      rcases List.mem_append.mp h with h | h
      · obtain ⟨ts', _, rfl⟩ := List.mem_map.mp h
        exact ⟨k, ts', rfl, by simp [JsonFields.keys]⟩
      · obtain ⟨k', tl, rfl, hk⟩ := tokListsF_shape fs ts h
        exact ⟨k', tl, rfl, by simp [JsonFields.keys, hk]⟩

theorem tokListsL_shape : ∀ (es : JsonList) (i : Nat), ∀ ts ∈ tokListsL es i,
    ∃ j tl, ts = natToString j :: tl ∧ i ≤ j
  | .nil, _ => by intro ts h; simp [tokListsL] at h
  | .cons v es, i => by
      intro ts h
      rw [tokListsL] at h
      rcases List.mem_append.mp h with h | h
      · obtain ⟨ts', _, rfl⟩ := List.mem_map.mp h
        exact ⟨i, ts', rfl, Nat.le_refl i⟩
      · obtain ⟨j, tl, rfl, hj⟩ := tokListsL_shape es (i + 1) ts h
        exact ⟨j, tl, rfl, by omega⟩

theorem natToString_dotfree (n : Nat) : ('.' : Char) ∉ (natToString n).data := fun h =>
  (digit_not_special (natToDigits_all_digits n _ h)).1 rfl

theorem tokLists_prim_dotfree (v : Json) (hv : detectNodeType v = .primitive) (key : String) :
    ∀ ts ∈ tokLists v key, ∀ s ∈ ts, ('.' : Char) ∉ s.data := by
  rw [primTree_tokLists v hv]
  split <;> intro ts hts s hs
  · rw [List.mem_singleton] at hts
    subst hts
    simp at hs
  · simp only [List.mem_cons, List.mem_singleton, List.not_mem_nil, or_false] at hts
    rcases hts with rfl | rfl
    · simp at hs
    · rw [List.mem_singleton] at hs
      subst hs
      decide

mutual

theorem tokLists_dotfree : ∀ (v : Json) (key : String),
    (∀ k ∈ allKeys v, ('.' : Char) ∉ k.data) →
    ∀ ts ∈ tokLists v key, ∀ s ∈ ts, ('.' : Char) ∉ s.data
  | .null, key, _ => tokLists_prim_dotfree .null rfl key
  | .boolean b, key, _ => tokLists_prim_dotfree (.boolean b) rfl key
  | .num m, key, _ => tokLists_prim_dotfree (.num m) rfl key
  | .str s, key, _ => tokLists_prim_dotfree (.str s) rfl key
  | .obj fields, key, h => by
      intro ts hts s hs
      rw [tokLists] at hts
      rcases List.mem_cons.mp hts with rfl | hts
      · simp at hs
      · refine tokListsF_dotfree fields ?_ ?_ ts hts s hs
        · exact fun k hk => h k (by rw [allKeys]; exact List.mem_append.mpr (Or.inl hk))
        · exact fun k hk => h k (by rw [allKeys]; exact List.mem_append.mpr (Or.inr hk))
  | .arr elems, key, h => by
      intro ts hts s hs
      rw [tokLists] at hts
      rcases List.mem_cons.mp hts with rfl | hts
      · simp at hs
      · exact tokListsL_dotfree elems 0 (fun k hk => h k (by rwa [allKeys])) ts hts s hs

theorem tokListsF_dotfree : ∀ (fs : JsonFields),
    (∀ k ∈ fs.keys, ('.' : Char) ∉ k.data) →
    (∀ k ∈ allKeysF fs, ('.' : Char) ∉ k.data) →
    ∀ ts ∈ tokListsF fs, ∀ s ∈ ts, ('.' : Char) ∉ s.data
  | .nil, _, _ => by intro ts hts; simp [tokListsF] at hts
  | .cons k v fs, h₁, h₂ => by
      intro ts hts s hs
      rw [tokListsF] at hts
      rcases List.mem_append.mp hts with hts | hts
      · obtain ⟨ts', hts', rfl⟩ := List.mem_map.mp hts
        rcases List.mem_cons.mp hs with rfl | hs'
        · exact h₁ s (by simp [JsonFields.keys])
        · refine tokLists_dotfree v k ?_ ts' hts' s hs'
          exact fun k' hk' => h₂ k' (by rw [allKeysF]; exact List.mem_append.mpr (Or.inl hk'))
      · refine tokListsF_dotfree fs ?_ ?_ ts hts s hs
        · exact fun k' hk' => h₁ k' (by simp [JsonFields.keys, hk'])
        · exact fun k' hk' => h₂ k' (by rw [allKeysF]; exact List.mem_append.mpr (Or.inr hk'))

theorem tokListsL_dotfree : ∀ (es : JsonList) (i : Nat),
    (∀ k ∈ allKeysL es, ('.' : Char) ∉ k.data) →
    ∀ ts ∈ tokListsL es i, ∀ s ∈ ts, ('.' : Char) ∉ s.data
  | .nil, _, _ => by intro ts hts; simp [tokListsL] at hts
  | .cons v es, i, h => by
      intro ts hts s hs
      rw [tokListsL] at hts
      rcases List.mem_append.mp hts with hts | hts
      · obtain ⟨ts', hts', rfl⟩ := List.mem_map.mp hts
        rcases List.mem_cons.mp hs with rfl | hs'
        · exact natToString_dotfree i
        · refine tokLists_dotfree v _ ?_ ts' hts' s hs'
          exact fun k' hk' => h k' (by rw [allKeysL]; exact List.mem_append.mpr (Or.inl hk'))
      · refine tokListsL_dotfree es (i + 1) ?_ ts hts s hs
        exact fun k' hk' => h k' (by rw [allKeysL]; exact List.mem_append.mpr (Or.inr hk'))

end

theorem tokLists_prim_nodup (v : Json) (hv : detectNodeType v = .primitive) (key : String) :
    (tokLists v key).Nodup := by
  rw [primTree_tokLists v hv]
  split <;> decide

mutual

theorem tokLists_nodup : ∀ (v : Json) (key : String), jsonWF v = true →
    (tokLists v key).Nodup
  | .null, key, _ => tokLists_prim_nodup .null rfl key
  | .boolean b, key, _ => tokLists_prim_nodup (.boolean b) rfl key
  | .num m, key, _ => tokLists_prim_nodup (.num m) rfl key
  | .str s, key, _ => tokLists_prim_nodup (.str s) rfl key
  | .obj fields, key, h => by
      rw [jsonWF, Bool.and_eq_true, decide_eq_true_eq] at h
      rw [tokLists]
      refine List.Nodup.cons ?_ (tokListsF_nodup fields h.2 h.1)
      intro hmem
      obtain ⟨k, tl, he, -⟩ := tokListsF_shape fields [] hmem
      exact List.noConfusion he
  | .arr elems, key, h => by
      rw [jsonWF] at h
      rw [tokLists]
      refine List.Nodup.cons ?_ (tokListsL_nodup elems 0 h)
      intro hmem
      obtain ⟨j, tl, he, -⟩ := tokListsL_shape elems 0 [] hmem
      exact List.noConfusion he

theorem tokListsF_nodup : ∀ (fs : JsonFields), jsonWFF fs = true → fs.keys.Nodup →
    (tokListsF fs).Nodup
  | .nil, _, _ => List.nodup_nil
  | .cons k v fs, h, hk => by
      rw [jsonWFF, Bool.and_eq_true] at h
      rw [JsonFields.keys, List.nodup_cons] at hk
      rw [tokListsF]
      rw [List.nodup_append]
      refine ⟨?_, tokListsF_nodup fs h.2 hk.2, ?_⟩
      · exact (tokLists_nodup v k h.1).map fun a b hab => (List.cons.injEq _ _ _ _ ▸ hab).2
      · intro ts hts hts'
        obtain ⟨ts₁, -, rfl⟩ := List.mem_map.mp hts
        obtain ⟨k', tl, he, hk'⟩ := tokListsF_shape fs _ hts'
        rw [List.cons.injEq] at he
        exact hk.1 (he.1 ▸ hk')

theorem tokListsL_nodup : ∀ (es : JsonList) (i : Nat), jsonWFL es = true →
    (tokListsL es i).Nodup
  | .nil, _, _ => List.nodup_nil
  | .cons v es, i, h => by
      rw [jsonWFL, Bool.and_eq_true] at h
      rw [tokListsL]
      rw [List.nodup_append]
      refine ⟨?_, tokListsL_nodup es (i + 1) h.2, ?_⟩
      · exact (tokLists_nodup v _ h.1).map fun a b hab => (List.cons.injEq _ _ _ _ ▸ hab).2
      · intro ts hts hts'
        obtain ⟨ts₁, -, rfl⟩ := List.mem_map.mp hts
        obtain ⟨j, tl, he, hj⟩ := tokListsL_shape es (i + 1) _ hts'
        rw [List.cons.injEq] at he
        have := natToString_inj he.1
        omega

end

/-! ## Injectivity of the dot-join on dot-free segments -/

theorem segs_cancel : ∀ (a r₁ b r₂ : List Char),
    ('.' : Char) ∉ a → ('.' : Char) ∉ b →
    (r₁ = [] ∨ ∃ x, r₁ = '.' :: x) → (r₂ = [] ∨ ∃ x, r₂ = '.' :: x) →
    a ++ r₁ = b ++ r₂ → a = b ∧ r₁ = r₂ := by
  intro a
  induction a with
  | nil =>
      intro r₁ b r₂ _ hb h₁ _ he
      cases b with
      | nil => exact ⟨rfl, by simpa using he⟩
      | cons c bs =>
          simp only [List.nil_append, List.cons_append] at he
          rcases h₁ with rfl | ⟨x, rfl⟩
          · exact absurd he.symm (List.cons_ne_nil c (bs ++ r₂))
          · rw [List.cons.injEq] at he
            exact absurd (List.mem_cons_self c bs) (he.1 ▸ hb)
  | cons c as ih =>
      intro r₁ b r₂ ha hb h₁ h₂ he
      cases b with
      | nil =>
          simp only [List.cons_append, List.nil_append] at he
          rcases h₂ with rfl | ⟨x, rfl⟩
          · exact absurd he (List.cons_ne_nil c (as ++ r₁))
          · rw [List.cons.injEq] at he
            exact absurd (List.mem_cons_self c as) (he.1.symm ▸ ha)
      | cons c' bs =>
          simp only [List.cons_append, List.cons.injEq] at he
          obtain ⟨has, hr⟩ := ih r₁ bs r₂ (fun h => ha (List.mem_cons_of_mem c h))
            (fun h => hb (List.mem_cons_of_mem c' h)) h₁ h₂ he.2
          exact ⟨by rw [he.1, has], hr⟩

theorem joinSegs_inj : ∀ (ts₁ ts₂ : List String),
    (∀ s ∈ ts₁, ('.' : Char) ∉ s.data) → (∀ s ∈ ts₂, ('.' : Char) ∉ s.data) →
    joinSegs ts₁ = joinSegs ts₂ → ts₁ = ts₂ := by
  intro ts₁
  induction ts₁ with
  | nil =>
      intro ts₂ _ _ he
      cases ts₂ with
      | nil => rfl
      | cons t ts =>
          have := congrArg String.data he
          rw [joinSegs_cons_data] at this
          exact absurd this.symm (List.cons_ne_nil _ _)
  | cons t ts ih =>
      intro ts₂ h₁ h₂ he
      cases ts₂ with
      | nil =>
          have := congrArg String.data he
          rw [joinSegs_cons_data] at this
          exact absurd this (List.cons_ne_nil _ _)
      | cons t' ts' =>
          have hd := congrArg String.data he
          rw [joinSegs_cons_data, joinSegs_cons_data, List.cons.injEq] at hd
          obtain ⟨hseg, hrest⟩ := segs_cancel t.data (joinSegs ts).data t'.data
            (joinSegs ts').data (h₁ t (by simp)) (h₂ t' (by simp))
            (joinSegs_shape ts) (joinSegs_shape ts') hd.2
          have ht : t = t' := str_ext hseg
          have hts : ts = ts' := ih ts' (fun s hs => h₁ s (by simp [hs]))
            (fun s hs => h₂ s (by simp [hs])) (str_ext hrest)
          rw [ht, hts]

/-- Distinctness of all ids in a built tree, for values whose keys are
free of `.` (and, as JS guarantees, distinct within each object). -/
theorem build_allIds_nodup (v : Json) (key : String) (dep : Nat) (p : String)
    (hwf : jsonWF v = true) (hdot : ∀ k ∈ allKeys v, ('.' : Char) ∉ k.data) :
    (allIds (buildStructuredNode v key dep p)).Nodup := by
  rw [allIds_build]
  refine (tokLists_nodup v key hwf).map_on ?_
  intro ts₁ h₁ ts₂ h₂ he
  exact joinSegs_inj ts₁ ts₂ (tokLists_dotfree v key hdot ts₁ h₁)
    (tokLists_dotfree v key hdot ts₂ h₂) (string_append_cancel he)

/-! ## Claim C3: id uniqueness -/

/-- Claim C3 (amended).  The ids of the tree built from `V` are
pairwise distinct provided no object key occurring anywhere in `V`
contains a `.` character (`jsonWF` records what JS already guarantees:
keys are distinct within each object).  Unrestricted, the claim fails:
a key containing a dot collides with a nested access path. -/
theorem claim_C3 (V : Json) (hwf : jsonWF V = true)
    (hdot : ∀ k ∈ allKeys V, ('.' : Char) ∉ k.data) :
    (allIds (buildStructuredNode V "root" 0 "root")).Nodup :=
  build_allIds_nodup V "root" 0 "root" hwf hdot

/-- Claim C3, witness: distinct ids on `{"a": 1, "b": {"c": true}}`. -/
theorem claim_C3_witness :
    (allIds (buildStructuredNode
      (Json.obj (.cons "a" (.num 1)
        (.cons "b" (.obj (.cons "c" (.boolean true) .nil)) .nil)))
      "root" 0 "root")).Nodup :=
  claim_C3 _ (by decide) (by decide)

/-- Claim C3, counterexample to the original wording: on
`{"a.b": 1, "a": {"b": 2}}` the id `root.a.b` (and the synthetic
`root.a.b.value`) is assigned to two different nodes, so the ids are
not pairwise distinct for every JSON value. -/
theorem claim_C3_cex :
    allIds (buildStructuredNode
        (Json.obj (.cons "a.b" (.num 1)
          (.cons "a" (.obj (.cons "b" (.num 2) .nil)) .nil)))
        "root" 0 "root") =
      ["root", "root.a.b", "root.a.b.value", "root.a", "root.a.b", "root.a.b.value"] ∧
    ¬ (allIds (buildStructuredNode
        (Json.obj (.cons "a.b" (.num 1)
          (.cons "a" (.obj (.cons "b" (.num 2) .nil)) .nil)))
        "root" 0 "root")).Nodup := by
  constructor
  · rfl
  · decide

/-! ## Claim C2: root elision -/

theorem build_id (v : Json) (key : String) (dep : Nat) (p : String) :
    (buildStructuredNode v key dep p).id = p := by
  cases v with
  | obj fields => rfl
  | arr elems => rfl
  | null => rw [buildStructuredNode_prim .null rfl]; split <;> rfl
  | boolean b => rw [buildStructuredNode_prim (.boolean b) rfl]; split <;> rfl
  | num m => rw [buildStructuredNode_prim (.num m) rfl]; split <;> rfl
  | str s => rw [buildStructuredNode_prim (.str s) rfl]; split <;> rfl

mutual

theorem visitNode_ids (pos : List (String × Pos)) (d : Bool) (hl : Option String) :
    ∀ n : StructuredNode,
      (visitNode pos d hl n).1.map FlowNode.id = (allNodes n).map StructuredNode.id
  | .mk i l t dep cs => by
      rw [visitNode, allNodes]
      simp only [List.map_cons]
      exact congrArg₂ List.cons rfl (visitChildren_ids pos d hl i cs)

theorem visitChildren_ids (pos : List (String × Pos)) (d : Bool) (hl : Option String)
    (pid : String) : ∀ cs : SNodeList,
      (visitChildren pos d hl pid cs).1.map FlowNode.id =
        (allNodesL cs).map StructuredNode.id
  | .nil => rfl
  | .cons c cs => by
      rw [visitChildren, allNodesL]
      simp only [List.map_append]
      exact congrArg₂ List.append (visitNode_ids pos d hl c)
        (visitChildren_ids pos d hl pid cs)

end

/-- Every node below the root of a built tree has an id strictly
extending `"root"`. -/
theorem desc_ids_ne_root (v : Json) (hv : detectNodeType v ≠ .primitive) :
    ∀ s ∈ (allNodesL (buildStructuredNode v "root" 0 "root").children).map
      StructuredNode.id, s ≠ "root" := by
  intro s hs
  cases v with
  | obj fields =>
      rw [buildStructuredNode] at hs
      simp only [StructuredNode.children] at hs
      rw [allIds_buildF] at hs
      obtain ⟨ts, hts, rfl⟩ := List.mem_map.mp hs
      obtain ⟨k, tl, rfl, -⟩ := tokListsF_shape fields ts hts
      exact append_ne_self_of_ne_nil (by rw [joinSegs_cons_data]; exact List.cons_ne_nil _ _)
  | arr elems =>
      rw [buildStructuredNode] at hs
      simp only [StructuredNode.children] at hs
      rw [allIds_buildL] at hs
      obtain ⟨ts, hts, rfl⟩ := List.mem_map.mp hs
      obtain ⟨j, tl, rfl, -⟩ := tokListsL_shape elems 0 ts hts
      exact append_ne_self_of_ne_nil (by rw [joinSegs_cons_data]; exact List.cons_ne_nil _ _)
  | null => exact absurd rfl hv
  | boolean b => exact absurd rfl hv
  | num m => exact absurd rfl hv
  | str t => exact absurd rfl hv

theorem build_container_type (v : Json) (hv : detectNodeType v ≠ .primitive)
    (key : String) (dep : Nat) (p : String) :
    (buildStructuredNode v key dep p).type = detectNodeType v := by
  cases v with
  | obj fields => rfl
  | arr elems => rfl
  | null => exact absurd rfl hv
  | boolean b => exact absurd rfl hv
  | num m => exact absurd rfl hv
  | str t => exact absurd rfl hv

theorem shiftUp_id (n : FlowNode) : (shiftUp n).id = n.id := rfl

/-- One-step unfolding of the emitter's `visit` on an arbitrary node. -/
theorem visitNode_eq (pos : List (String × Pos)) (d : Bool) (hl : Option String)
    (n : StructuredNode) :
    visitNode pos d hl n =
      (⟨n.id, n.label, n.type,
          (mapGet pos n.id).getD (0, (n.depth : Int) * VERTICAL_GAP),
          false, false, getNodeStyle n.type d (hl = some n.id)⟩ ::
            (visitChildren pos d hl n.id n.children).1,
        (visitChildren pos d hl n.id n.children).2) := by
  cases n
  rfl

/-- Claim C2: root elision.  For a container top level the emitted
graph has no node with id `"root"` and no edge touching `"root"`; the
pre-elision node list starts with the root node and the emitted nodes
are exactly the remaining ones, each shifted up by one `VERTICAL_GAP`.
For a bare primitive the emitted graph is the single node `"root"`
with no edges. -/
theorem claim_C2 (v : Json) (d : Bool) (hl : Option String) :
    (detectNodeType v ≠ .primitive →
      (∀ n ∈ (buildFlowGraph v d hl).nodes, n.id ≠ "root") ∧
      (∀ e ∈ (buildFlowGraph v d hl).edges, e.source ≠ "root" ∧ e.target ≠ "root") ∧
      (∃ rn rest,
        (visitNode (assignPositions (buildStructuredNode v "root" 0 "root")) d hl
          (buildStructuredNode v "root" 0 "root")).1 = rn :: rest ∧
        rn.id = "root" ∧ (∀ n ∈ rest, n.id ≠ "root") ∧
        (buildFlowGraph v d hl).nodes = rest.map shiftUp)) ∧
    (detectNodeType v = .primitive →
      ∃ n, (buildFlowGraph v d hl).nodes = [n] ∧ n.id = "root" ∧
        (buildFlowGraph v d hl).edges = []) := by
  have hid : (buildStructuredNode v "root" 0 "root").id = "root" := build_id v "root" 0 "root"
  constructor
  · intro hv
    have htype : (buildStructuredNode v "root" 0 "root").type = detectNodeType v :=
      build_container_type v hv "root" 0 "root"
    have hne : (buildStructuredNode v "root" 0 "root").type ≠ .value := by
      rw [htype]
      cases v <;> simp_all [detectNodeType]
    have hrest : ∀ n ∈ (visitChildren
        (assignPositions (buildStructuredNode v "root" 0 "root")) d hl
        (buildStructuredNode v "root" 0 "root").id
        (buildStructuredNode v "root" 0 "root").children).1, n.id ≠ "root" := by
      intro n hn
      have hmem : n.id ∈ ((visitChildren
          (assignPositions (buildStructuredNode v "root" 0 "root")) d hl
          (buildStructuredNode v "root" 0 "root").id
          (buildStructuredNode v "root" 0 "root").children).1.map FlowNode.id) :=
        List.mem_map_of_mem FlowNode.id hn
      rw [visitChildren_ids] at hmem
      exact desc_ids_ne_root v hv n.id hmem
    have hvisit : (visitNode (assignPositions (buildStructuredNode v "root" 0 "root")) d hl
        (buildStructuredNode v "root" 0 "root")).1 =
      (⟨(buildStructuredNode v "root" 0 "root").id,
        (buildStructuredNode v "root" 0 "root").label,
        (buildStructuredNode v "root" 0 "root").type,
        (mapGet (assignPositions (buildStructuredNode v "root" 0 "root"))
          (buildStructuredNode v "root" 0 "root").id).getD
            (0, ((buildStructuredNode v "root" 0 "root").depth : Int) * VERTICAL_GAP),
        false, false,
        getNodeStyle (buildStructuredNode v "root" 0 "root").type d
          (hl = some (buildStructuredNode v "root" 0 "root").id)⟩ :
          FlowNode) ::
        (visitChildren (assignPositions (buildStructuredNode v "root" 0 "root")) d hl
          (buildStructuredNode v "root" 0 "root").id
          (buildStructuredNode v "root" 0 "root").children).1 :=
      congrArg Prod.fst (visitNode_eq _ d hl _)
    have hnodes : (buildFlowGraph v d hl).nodes =
        ((visitChildren (assignPositions (buildStructuredNode v "root" 0 "root")) d hl
          (buildStructuredNode v "root" 0 "root").id
          (buildStructuredNode v "root" 0 "root").children).1).map shiftUp := by
      simp only [buildFlowGraph, if_pos hne]
      rw [hvisit]
      congr 1
      rw [List.filter_cons]
      rw [if_neg (by simp [hid])]
      refine List.filter_eq_self.mpr fun n hn => ?_
      simp only [hid, decide_eq_true_eq]
      exact hrest n hn
    have hedges : ∀ e ∈ (buildFlowGraph v d hl).edges,
        e.source ≠ "root" ∧ e.target ≠ "root" := by
      intro e he
      simp only [buildFlowGraph, if_pos hne] at he
      have := (List.mem_filter.mp he).2
      rw [hid] at this
      simpa using this
    refine ⟨?_, hedges, ?_⟩
    · intro n hn
      rw [hnodes] at hn
      obtain ⟨n₀, hn₀, rfl⟩ := List.mem_map.mp hn
      rw [shiftUp_id]
      exact hrest n₀ hn₀
    · exact ⟨_, _, hvisit, hid, hrest, hnodes⟩
  · intro hv
    have hroot : buildStructuredNode v "root" 0 "root" =
        .mk "root" (formatPrimitive v) .value 0 .nil := by
      rw [buildStructuredNode_prim v hv, if_pos rfl]
    have hnodes : (buildFlowGraph v d hl).nodes =
        [⟨"root", formatPrimitive v, .value,
          (mapGet (assignPositions (.mk "root" (formatPrimitive v) .value 0 .nil))
            "root").getD (0, 0),
          false, false, getNodeStyle .value d (hl = some "root")⟩] := by
      simp only [buildFlowGraph, hroot]
      rw [if_neg (by simp [StructuredNode.type])]
      rw [visitNode_eq]
      simp [visitChildren, StructuredNode.id, StructuredNode.label,
        StructuredNode.type, StructuredNode.depth, StructuredNode.children]
    have hedges : (buildFlowGraph v d hl).edges = [] := by
      simp only [buildFlowGraph, hroot]
      rw [if_neg (by simp [StructuredNode.type])]
      rw [visitNode_eq]
      simp [visitChildren, StructuredNode.children]
    exact ⟨_, hnodes, rfl, hedges⟩

/-- Claim C2, witness: `{"a": 1}` emits no `"root"` node, and `42`
emits exactly the `"root"` node. -/
theorem claim_C2_witness :
    (∀ n ∈ (buildFlowGraph (Json.obj (.cons "a" (.num 1) .nil)) false none).nodes,
      n.id ≠ "root") ∧
    (∃ n, (buildFlowGraph (Json.num 42) false none).nodes = [n] ∧ n.id = "root" ∧
      (buildFlowGraph (Json.num 42) false none).edges = []) :=
  ⟨((claim_C2 (Json.obj (.cons "a" (.num 1) .nil)) false none).1 (by decide)).1,
   (claim_C2 (Json.num 42) false none).2 rfl⟩

/-! ## Claim C10: the highlight id only touches the matching node's style -/

theorem highlightMatch_head (H i l : String) (t : JsonNodeType) (d : Bool) (ps : Pos) :
    highlightMatch H
      ⟨i, l, t, ps, false, false, getNodeStyle t d ((some H : Option String) = some i)⟩
      ⟨i, l, t, ps, false, false, getNodeStyle t d ((none : Option String) = some i)⟩ := by
  refine ⟨rfl, rfl, rfl, rfl, rfl, rfl, ?_, rfl, rfl, rfl, rfl, rfl, rfl, rfl, rfl⟩
  intro hne
  have h₁ : (decide ((some H : Option String) = some i)) = false := by
    simp only [decide_eq_false_iff_not]
    intro he
    exact hne (by simp at he; exact he.symm ▸ rfl)
  have h₂ : (decide ((none : Option String) = some i)) = false := by simp
  show FlowNode.mk i l t ps false false _ = FlowNode.mk i l t ps false false _
  rw [h₁, h₂]

theorem highlightMatch_shiftUp {H : String} {n₁ n₀ : FlowNode}
    (h : highlightMatch H n₁ n₀) : highlightMatch H (shiftUp n₁) (shiftUp n₀) := by
  obtain ⟨h₁, h₂, h₃, h₄, h₅, h₆, h₇, h₈⟩ := h
  exact ⟨h₁, h₂, h₃, by simp [shiftUp, h₄], h₅, h₆,
    fun hne => by rw [h₇ hne], h₈⟩

theorem forall₂_filter_of (R : FlowNode → FlowNode → Prop) (p : FlowNode → Bool)
    (hR : ∀ a b, R a b → p a = p b) :
    ∀ {l₁ l₂ : List FlowNode}, List.Forall₂ R l₁ l₂ →
      List.Forall₂ R (l₁.filter p) (l₂.filter p) := by
  intro l₁ l₂ h
  induction h with
  | nil => exact .nil
  | @cons a b as bs hab _ ih =>
      rw [List.filter_cons, List.filter_cons, ← hR a b hab]
      by_cases hp : p a = true
      · rw [if_pos hp, if_pos hp]
        exact .cons hab ih
      · rw [if_neg hp, if_neg hp]
        exact ih

theorem forall₂_map_of (R : FlowNode → FlowNode → Prop) (f : FlowNode → FlowNode)
    (hf : ∀ a b, R a b → R (f a) (f b)) :
    ∀ {l₁ l₂ : List FlowNode}, List.Forall₂ R l₁ l₂ →
      List.Forall₂ R (l₁.map f) (l₂.map f) := by
  intro l₁ l₂ h
  induction h with
  | nil => exact .nil
  | cons hab _ ih => exact .cons (hf _ _ hab) ih

mutual

theorem visit_hl_nodes (pos : List (String × Pos)) (d : Bool) (H : String) :
    ∀ n : StructuredNode,
      List.Forall₂ (highlightMatch H) (visitNode pos d (some H) n).1
        (visitNode pos d none n).1
  | .mk i l t dep cs => by
      rw [visitNode, visitNode]
      exact .cons (highlightMatch_head H i l t d _) (visitCh_hl_nodes pos d H i cs)

theorem visitCh_hl_nodes (pos : List (String × Pos)) (d : Bool) (H : String)
    (pid : String) : ∀ cs : SNodeList,
      List.Forall₂ (highlightMatch H) (visitChildren pos d (some H) pid cs).1
        (visitChildren pos d none pid cs).1
  | .nil => .nil
  | .cons c cs => by
      rw [visitChildren, visitChildren]
      exact List.rel_append (visit_hl_nodes pos d H c) (visitCh_hl_nodes pos d H pid cs)

end

mutual

theorem visit_hl_edges (pos : List (String × Pos)) (d : Bool) (H : String) :
    ∀ n : StructuredNode, (visitNode pos d (some H) n).2 = (visitNode pos d none n).2
  | .mk i l t dep cs => by
      rw [visitNode, visitNode]
      exact visitCh_hl_edges pos d H i cs

theorem visitCh_hl_edges (pos : List (String × Pos)) (d : Bool) (H : String)
    (pid : String) : ∀ cs : SNodeList,
      (visitChildren pos d (some H) pid cs).2 = (visitChildren pos d none pid cs).2
  | .nil => rfl
  | .cons c cs => by
      rw [visitChildren, visitChildren]
      rw [visit_hl_edges pos d H c, visitCh_hl_edges pos d H pid cs]

end

/-- Claim C10: for every value, dark flag and highlight id `H`, the
graph built with highlight `H` has exactly the same edge list as the
graph built with no highlight, and its node list agrees node-for-node
(ids, labels, kinds, positions, flags, order); a node whose id differs
from `H` is identical, and the node with id `H` may differ only in the
style's border color, border width, box shadow and z-index — its other
style fields are unchanged. -/
theorem claim_C10 (v : Json) (d : Bool) (H : String) :
    (buildFlowGraph v d (some H)).edges = (buildFlowGraph v d none).edges ∧
    List.Forall₂ (highlightMatch H) (buildFlowGraph v d (some H)).nodes
      (buildFlowGraph v d none).nodes := by
  have hedges := visit_hl_edges (assignPositions (buildStructuredNode v "root" 0 "root"))
    d H (buildStructuredNode v "root" 0 "root")
  have hnodes := visit_hl_nodes (assignPositions (buildStructuredNode v "root" 0 "root"))
    d H (buildStructuredNode v "root" 0 "root")
  by_cases hr : (buildStructuredNode v "root" 0 "root").type ≠ .value
  · constructor
    · simp only [buildFlowGraph, if_pos hr]
      rw [hedges]
    · simp only [buildFlowGraph, if_pos hr]
      refine forall₂_map_of _ _ (fun a b hab => highlightMatch_shiftUp hab) ?_
      refine forall₂_filter_of _ _ (fun a b hab => ?_) hnodes
      rw [hab.1]
  · constructor
    · simp only [buildFlowGraph, if_neg hr]
      rw [hedges]
    · simp only [buildFlowGraph, if_neg hr]
      exact hnodes

/-! ## Positions-map lemmas (claim C7) -/

theorem mapSet_fresh {m : List (String × Pos)} {k : String}
    (h : ∀ e ∈ m, e.1 ≠ k) (v : Pos) : mapSet m k v = m ++ [(k, v)] := by
  unfold mapSet
  rw [if_neg]
  simp only [List.any_eq_true, decide_eq_true_eq, not_exists, not_and]
  exact h

theorem mapGet_append_left {m₁ m₂ : List (String × Pos)} {k : String} {val : Pos}
    (h : mapGet m₁ k = some val) : mapGet (m₁ ++ m₂) k = some val := by
  unfold mapGet at h ⊢
  rw [List.find?_append]
  obtain ⟨e, he, hv⟩ := Option.map_eq_some'.mp h
  rw [he]
  simpa using hv

theorem mapGet_append_right {m₁ m₂ : List (String × Pos)} {k : String}
    (h : ∀ e ∈ m₁, e.1 ≠ k) : mapGet (m₁ ++ m₂) k = mapGet m₂ k := by
  unfold mapGet
  rw [List.find?_append]
  have : m₁.find? (fun e => e.1 = k) = none := by
    rw [List.find?_eq_none]
    intro e he
    simp only [decide_eq_true_eq]
    exact h e he
  rw [this]
  rfl

theorem mapGet_singleton (k : String) (v : Pos) : mapGet [(k, v)] k = some v := by
  simp [mapGet, List.find?]

theorem mapGet_mem {m : List (String × Pos)} {k : String} {val : Pos}
    (h : mapGet m k = some val) : (k, val) ∈ m := by
  unfold mapGet at h
  obtain ⟨e, he, hv⟩ := Option.map_eq_some'.mp h
  have hk := List.find?_some he
  simp only [decide_eq_true_eq] at hk
  have hm := List.mem_of_find?_eq_some he
  have he₂ : e = (k, val) := Prod.ext hk hv
  rw [← he₂]
  exact hm

theorem mapGet_of_mem_nodup {m : List (String × Pos)}
    (hn : (m.map Prod.fst).Nodup) {e : String × Pos} (he : e ∈ m) :
    mapGet m e.1 = some e.2 := by
  induction m with
  | nil => simp at he
  | cons a m ih =>
      rw [List.map_cons, List.nodup_cons] at hn
      rcases List.mem_cons.mp he with rfl | he
      · simp [mapGet, List.find?]
      · have hne : a.1 ≠ e.1 := fun hne =>
          hn.1 (hne ▸ List.mem_map_of_mem Prod.fst he)
        unfold mapGet
        rw [List.find?_cons_of_neg _ (by simpa using hne)]
        exact ih hn.2 he

theorem le_foldl_min {c : Int} : ∀ (l : List Int) (a : Int),
    (∀ x ∈ a :: l, c ≤ x) → c ≤ l.foldl min a
  | [], a, h => h a (by simp)
  | x :: xs, a, h => by
      rw [List.foldl_cons]
      refine le_foldl_min xs (min a x) fun y hy => ?_
      rcases List.mem_cons.mp hy with rfl | hy
      · exact le_min (h a (by simp)) (h x (by simp))
      · exact h y (by simp [hy])

theorem foldl_min_le {c : Int} : ∀ (l : List Int) (a : Int),
    c ∈ a :: l → l.foldl min a ≤ c
  | [], a, h => by
      simp only [List.not_mem_nil, or_false, List.mem_singleton] at h
      subst h
      simp
  | x :: xs, a, h => by
      rw [List.foldl_cons]
      rcases List.mem_cons.mp h with rfl | h
      · calc xs.foldl min (min c x) ≤ min c x :=
            foldl_min_le xs (min c x) (by simp)
          _ ≤ c := min_le_left c x
      · rcases List.mem_cons.mp h with rfl | h
        · calc xs.foldl min (min a c) ≤ min a c :=
              foldl_min_le xs (min a c) (by simp)
            _ ≤ c := min_le_right a c
        · exact foldl_min_le xs (min a x) (by simp [h])

theorem optMin_le (m : Option Int) (x : Int) : optMin m x ≤ x := by
  cases m with
  | none => exact le_refl x
  | some a => exact min_le_right a x

theorem optMin_absorb {m : Option Int} {x y : Int} (h : x ≤ y) :
    min (optMin m x) y = optMin m x :=
  min_eq_left ((optMin_le m x).trans h)

theorem optMax_absorb {m : Option Int} {x y : Int} (h : x ≤ y) :
    max (optMax m x) y = optMax m y := by
  cases m with
  | none => exact max_eq_right h
  | some a =>
      show max (max a x) y = max a y
      rw [max_assoc, max_eq_right h]

/-! ## Leaf bookkeeping -/

mutual

theorem leafIds_ne_nil : ∀ n : StructuredNode, leafIds n ≠ []
  | .mk i _ _ _ .nil => by simp [leafIds]
  | .mk _ _ _ _ (.cons c cs) => by
      rw [leafIds, leafIdsL]
      simp only [ne_eq, List.append_eq_nil, not_and]
      intro h
      exact absurd h (leafIds_ne_nil c)

end

mutual

theorem leafIds_sub : ∀ n : StructuredNode, ∀ s ∈ leafIds n, s ∈ allIds n
  | .mk i l t d .nil => by
      intro s hs
      simp [leafIds] at hs
      simp [allIds, allNodes, allNodesL, StructuredNode.id, hs]
  | .mk i l t d (.cons c cs) => by
      intro s hs
      rw [leafIds] at hs
      rw [allIds, allNodes, List.map_cons]
      exact List.mem_cons_of_mem _ (leafIdsL_sub (.cons c cs) s hs)

theorem leafIdsL_sub : ∀ cs : SNodeList, ∀ s ∈ leafIdsL cs,
    s ∈ (allNodesL cs).map StructuredNode.id
  | .nil => by intro s hs; simp [leafIdsL] at hs
  | .cons c cs => by
      intro s hs
      rw [leafIdsL] at hs
      rw [allNodesL, List.map_append]
      rcases List.mem_append.mp hs with hs | hs
      · exact List.mem_append.mpr (Or.inl (leafIds_sub c s hs))
      · exact List.mem_append.mpr (Or.inr (leafIdsL_sub cs s hs))

end

/-! ## The layout invariant

Running `place` from leaf counter `li` on a tree with distinct ids not
yet in the map appends one entry per node, assigns the `k`-th leaf (in
traversal order) the x `(li + k) * HORIZONTAL_GAP` and every node the y
`depth * VERTICAL_GAP`, keeps every x within the subtree's leaf range,
and reports exactly that range. -/

mutual

theorem place_spec : ∀ (n : StructuredNode) (ps : List (String × Pos)) (li : Nat),
    (allIds n).Nodup →
    (∀ e ∈ ps, e.1 ∉ allIds n) →
    ∃ newE : List (String × Pos),
      place n ⟨ps, li⟩ =
        (⟨ps ++ newE, li + (leafIds n).length⟩,
          (li : Int) * HORIZONTAL_GAP,
          ((li + (leafIds n).length - 1 : Nat) : Int) * HORIZONTAL_GAP) ∧
      (newE.map Prod.fst).Perm (allIds n) ∧
      (∀ k s, (leafIds n).get? k = some s →
        ∃ y, mapGet newE s = some (((li + k : Nat) : Int) * HORIZONTAL_GAP, y)) ∧
      (∀ nd ∈ allNodes n, ∃ x,
        mapGet newE nd.id = some (x, (nd.depth : Int) * VERTICAL_GAP) ∧
        (li : Int) * HORIZONTAL_GAP ≤ x ∧
        x ≤ ((li + (leafIds n).length - 1 : Nat) : Int) * HORIZONTAL_GAP)
  | .mk i l t dep .nil, ps, li, hnd, hfresh => by
      have hids : allIds (.mk i l t dep .nil) = [i] := rfl
      refine ⟨[(i, ((li : Int) * HORIZONTAL_GAP, (dep : Int) * VERTICAL_GAP))], ?_, ?_, ?_, ?_⟩
      · rw [place]
        rw [mapSet_fresh (fun e he hei => hfresh e he (hei ▸ by simp [hids]))]
        simp [leafIds]
      · simp [hids]
      · intro k s hs
        match k, hs with
        | 0, hs =>
            have hsi : i = s := by simpa [leafIds] using hs
            subst hsi
            exact ⟨(dep : Int) * VERTICAL_GAP, by simpa using mapGet_singleton i _⟩
        | k + 1, hs => simp [leafIds] at hs
      · intro nd hnd'
        simp only [allNodes, allNodesL, List.mem_singleton] at hnd'
        subst hnd'
        refine ⟨(li : Int) * HORIZONTAL_GAP, ?_, le_refl _, ?_⟩
        · simpa [StructuredNode.id, StructuredNode.depth] using
            mapGet_singleton i ((li : Int) * HORIZONTAL_GAP, (dep : Int) * VERTICAL_GAP)
        · simp [leafIds]
  | .mk i l t dep (.cons c cs), ps, li, hnd, hfresh => by
      have hids : allIds (.mk i l t dep (.cons c cs)) =
          i :: (allNodesL (.cons c cs)).map StructuredNode.id := rfl
      rw [hids, List.nodup_cons] at hnd
      have hfresh' : ∀ e ∈ ps, e.1 ∉ (allNodesL (.cons c cs)).map StructuredNode.id :=
        fun e he hmem => hfresh e he (by rw [hids]; exact List.mem_cons_of_mem _ hmem)
      obtain ⟨newE, m', M', hL1, -, hL3, hL4, hL5, hL6⟩ :=
        placeList_spec (.cons c cs) ps li none none hnd.2 hfresh'
      obtain ⟨hm', hM'⟩ := hL3 (by intro he; exact SNodeList.noConfusion he)
      subst hm'
      subst hM'
      have hcnt : (leafIds (.mk i l t dep (.cons c cs))).length =
          (leafIdsL (.cons c cs)).length := by rw [leafIds]
      have hi_not : ∀ e ∈ newE, e.1 ≠ i := by
        intro e he hei
        have : e.1 ∈ newE.map Prod.fst := List.mem_map_of_mem Prod.fst he
        exact hnd.1 (hei ▸ hL4.mem_iff.mp this)
      have hpos : 1 ≤ (leafIdsL (.cons c cs)).length := by
        rw [leafIdsL, List.length_append]
        have hne := leafIds_ne_nil c
        cases hc : leafIds c with
        | nil => exact absurd hc hne
        | cons a as => simp only [List.length_cons]; omega
      have hHnn : (0 : Int) ≤ HORIZONTAL_GAP := by decide
      have hx_bounds : (li : Int) * HORIZONTAL_GAP ≤
            (((li : Int) * HORIZONTAL_GAP) +
              (((li + (leafIdsL (.cons c cs)).length - 1 : Nat) : Int) * HORIZONTAL_GAP)) / 2 ∧
          (((li : Int) * HORIZONTAL_GAP) +
              (((li + (leafIdsL (.cons c cs)).length - 1 : Nat) : Int) * HORIZONTAL_GAP)) / 2 ≤
            ((li + (leafIdsL (.cons c cs)).length - 1 : Nat) : Int) * HORIZONTAL_GAP := by
        have h1 : (li : Int) * HORIZONTAL_GAP ≤
            ((li + (leafIdsL (.cons c cs)).length - 1 : Nat) : Int) * HORIZONTAL_GAP := by
          have h₂ : (li : Int) ≤ ((li + (leafIdsL (.cons c cs)).length - 1 : Nat) : Int) := by
            push_cast
            omega
          exact mul_le_mul_of_nonneg_right h₂ hHnn
        have h0 : (0 : Int) ≤ (li : Int) * HORIZONTAL_GAP :=
          mul_nonneg (Int.natCast_nonneg li) hHnn
        generalize hA : (li : Int) * HORIZONTAL_GAP = A at h1 h0 ⊢
        generalize hB : ((li + (leafIdsL (.cons c cs)).length - 1 : Nat) : Int) *
          HORIZONTAL_GAP = B at h1 ⊢
        constructor <;> omega
      refine ⟨newE ++ [((i, ((((li : Int) * HORIZONTAL_GAP) +
          (((li + (leafIdsL (.cons c cs)).length - 1 : Nat) : Int) * HORIZONTAL_GAP)) / 2,
          (dep : Int) * VERTICAL_GAP)) : String × Pos)], ?_, ?_, ?_, ?_⟩
      · rw [place, hL1]
        dsimp only
        rw [mapSet_fresh (by
          intro e he hei
          rcases List.mem_append.mp he with he | he
          · exact hfresh e he (by rw [hids, hei]; exact List.mem_cons_self i _)
          · exact hi_not e he hei)]
        rw [List.append_assoc]
        simp only [hcnt, optMin, optMax]
      · rw [hids, List.map_append]
        exact (List.perm_append_singleton i _).trans (hL4.cons i)
      · intro k s hs
        have hleaf : leafIds (.mk i l t dep (.cons c cs)) = leafIdsL (.cons c cs) := rfl
        rw [hleaf] at hs
        obtain ⟨y, hy⟩ := hL5 k s hs
        exact ⟨y, mapGet_append_left hy⟩
      · intro nd hnd'
        rw [allNodes] at hnd'
        rcases List.mem_cons.mp hnd' with rfl | hnd'
        · simp only [StructuredNode.id, StructuredNode.depth]
          refine ⟨_, ?_, hx_bounds.1, by rw [hcnt]; exact hx_bounds.2⟩
          rw [mapGet_append_right hi_not]
          exact mapGet_singleton i _
        · obtain ⟨x, hx, hx₁, hx₂⟩ := hL6 nd hnd'
          exact ⟨x, mapGet_append_left hx, hx₁, by rw [hcnt]; exact hx₂⟩

theorem placeList_spec : ∀ (cs : SNodeList) (ps : List (String × Pos)) (li : Nat)
    (m₀ M₀ : Option Int),
    ((allNodesL cs).map StructuredNode.id).Nodup →
    (∀ e ∈ ps, e.1 ∉ (allNodesL cs).map StructuredNode.id) →
    ∃ (newE : List (String × Pos)) (m' M' : Option Int),
      placeList cs ⟨ps, li⟩ m₀ M₀ = (⟨ps ++ newE, li + (leafIdsL cs).length⟩, m', M') ∧
      (cs = .nil → newE = [] ∧ m' = m₀ ∧ M' = M₀) ∧
      (cs ≠ .nil → m' = some (optMin m₀ ((li : Int) * HORIZONTAL_GAP)) ∧
        M' = some (optMax M₀
          (((li + (leafIdsL cs).length - 1 : Nat) : Int) * HORIZONTAL_GAP))) ∧
      (newE.map Prod.fst).Perm ((allNodesL cs).map StructuredNode.id) ∧
      (∀ k s, (leafIdsL cs).get? k = some s →
        ∃ y, mapGet newE s = some (((li + k : Nat) : Int) * HORIZONTAL_GAP, y)) ∧
      (∀ nd ∈ allNodesL cs, ∃ x,
        mapGet newE nd.id = some (x, (nd.depth : Int) * VERTICAL_GAP) ∧
        (li : Int) * HORIZONTAL_GAP ≤ x ∧
        x ≤ ((li + (leafIdsL cs).length - 1 : Nat) : Int) * HORIZONTAL_GAP)
  | .nil, ps, li, m₀, M₀, hnd, hfresh => by
      refine ⟨[], m₀, M₀, ?_, fun _ => ⟨rfl, rfl, rfl⟩,
        fun h => absurd rfl h, by simp [allNodesL], ?_, ?_⟩
      · rw [placeList]
        simp [leafIdsL]
      · intro k s hs
        simp [leafIdsL] at hs
      · intro nd hnd'
        simp [allNodesL] at hnd'
  | .cons c cs, ps, li, m₀, M₀, hnd, hfresh => by
      have hHnn : (0 : Int) ≤ HORIZONTAL_GAP := by decide
      have hsplit : (allNodesL (.cons c cs)).map StructuredNode.id =
          allIds c ++ (allNodesL cs).map StructuredNode.id := by
        rw [allNodesL, List.map_append]; rfl
      rw [hsplit, List.nodup_append] at hnd
      obtain ⟨hnd₁, hnd₂, hdisj⟩ := hnd
      obtain ⟨newE₁, hP1, hP2, hP3, hP4⟩ := place_spec c ps li hnd₁
        (fun e he hmem => hfresh e he (by rw [hsplit]; exact List.mem_append.mpr (Or.inl hmem)))
      obtain ⟨newE₂, m', M', hQ1, hQ2, hQ3, hQ4, hQ5, hQ6⟩ :=
        placeList_spec cs (ps ++ newE₁) (li + (leafIds c).length)
          (some (optMin m₀ ((li : Int) * HORIZONTAL_GAP)))
          (some (optMax M₀
            (((li + (leafIds c).length - 1 : Nat) : Int) * HORIZONTAL_GAP)))
          hnd₂
          (by
            intro e he hmem
            rcases List.mem_append.mp he with he | he
            · exact hfresh e he (by rw [hsplit]; exact List.mem_append.mpr (Or.inr hmem))
            · have : e.1 ∈ newE₁.map Prod.fst := List.mem_map_of_mem Prod.fst he
              exact hdisj (hP2.mem_iff.mp this) hmem)
      have hcnt : (leafIdsL (.cons c cs)).length =
          (leafIds c).length + (leafIdsL cs).length := by
        rw [leafIdsL, List.length_append]
      have hcpos : 1 ≤ (leafIds c).length := by
        have := leafIds_ne_nil c
        cases hc : leafIds c with
        | nil => exact absurd hc this
        | cons a as => simp
      have hleafapp : leafIdsL (.cons c cs) = leafIds c ++ leafIdsL cs := rfl
      refine ⟨newE₁ ++ newE₂, m', M', ?_, ?_, ?_, ?_, ?_, ?_⟩
      · rw [placeList, hP1]
        show placeList cs ⟨ps ++ newE₁, li + (leafIds c).length⟩ _ _ = _
        rw [hQ1, hcnt, List.append_assoc]
        congr 2
        omega
      · intro he
        exact SNodeList.noConfusion he
      · intro _
        cases hcs : cs with
        | nil =>
            subst hcs
            obtain ⟨he₂, hm', hM'⟩ := hQ2 rfl
            subst hm'
            subst hM'
            constructor
            · rfl
            · rw [hcnt]
              simp [leafIdsL]
        | cons c₂ cs₂ =>
            subst hcs
            obtain ⟨hm', hM'⟩ := hQ3 (by intro he; exact SNodeList.noConfusion he)
            subst hm'
            subst hM'
            constructor
            · show some (min (optMin m₀ ((li : Int) * HORIZONTAL_GAP)) _) = _
              rw [optMin_absorb]
              have h₂ : (li : Int) ≤ ((li + (leafIds c).length : Nat) : Int) := by
                push_cast; omega
              exact mul_le_mul_of_nonneg_right h₂ hHnn
            · show some (max (optMax M₀ _) _) = _
              have h₁ : ((li + (leafIds c).length - 1 : Nat) : Int) ≤
                  ((li + (leafIds c).length + (leafIdsL (.cons c₂ cs₂)).length - 1 : Nat) :
                    Int) := by
                omega
              rw [optMax_absorb (mul_le_mul_of_nonneg_right h₁ hHnn), hcnt]
              have h₂ : li + (leafIds c).length + (leafIdsL (.cons c₂ cs₂)).length - 1 =
                  li + ((leafIds c).length + (leafIdsL (.cons c₂ cs₂)).length) - 1 := by
                omega
              rw [h₂]
      · rw [List.map_append, hsplit]
        exact hP2.append hQ4
      · intro k s hs
        rw [hleafapp] at hs
        by_cases hkc : k < (leafIds c).length
        · rw [List.get?_append hkc] at hs
          obtain ⟨y, hy⟩ := hP3 k s hs
          exact ⟨y, mapGet_append_left hy⟩
        · rw [List.get?_append_right (by omega)] at hs
          obtain ⟨y, hy⟩ := hQ5 (k - (leafIds c).length) s hs
          have hfreshk : ∀ e ∈ newE₁, e.1 ≠ s := by
            intro e he hei
            have h₁ : e.1 ∈ newE₁.map Prod.fst := List.mem_map_of_mem Prod.fst he
            have h₂ := hP2.mem_iff.mp h₁
            have h₃ : s ∈ (allNodesL cs).map StructuredNode.id :=
              leafIdsL_sub cs s (List.get?_mem hs)
            exact hdisj (hei ▸ h₂) h₃
          refine ⟨y, ?_⟩
          rw [mapGet_append_right hfreshk, hy]
          have harith : ((li + (leafIds c).length + (k - (leafIds c).length) : Nat) : Int) =
              ((li + k : Nat) : Int) := by
            push_cast
            omega
          rw [harith]
      · intro nd hnd'
        rw [allNodesL] at hnd'
        rcases List.mem_append.mp hnd' with hnd' | hnd'
        · obtain ⟨x, hx, hx₁, hx₂⟩ := hP4 nd hnd'
          refine ⟨x, mapGet_append_left hx, hx₁, ?_⟩
          refine hx₂.trans ?_
          have h₂ : ((li + (leafIds c).length - 1 : Nat) : Int) ≤
              ((li + (leafIdsL (.cons c cs)).length - 1 : Nat) : Int) := by
            rw [hcnt]
            push_cast
            omega
          exact mul_le_mul_of_nonneg_right h₂ hHnn
        · obtain ⟨x, hx, hx₁, hx₂⟩ := hQ6 nd hnd'
          have hfreshn : ∀ e ∈ newE₁, e.1 ≠ nd.id := by
            intro e he hei
            have h₁ : e.1 ∈ newE₁.map Prod.fst := List.mem_map_of_mem Prod.fst he
            have h₂ := hP2.mem_iff.mp h₁
            exact hdisj (hei ▸ h₂) (List.mem_map_of_mem StructuredNode.id hnd')
          refine ⟨x, by rw [mapGet_append_right hfreshn]; exact hx, ?_, ?_⟩
          · refine le_trans ?_ hx₁
            have h₂ : (li : Int) ≤ ((li + (leafIds c).length : Nat) : Int) := by
              push_cast; omega
            exact mul_le_mul_of_nonneg_right h₂ hHnn
          · refine hx₂.trans ?_
            have h₂ : ((li + (leafIds c).length + (leafIdsL cs).length - 1 : Nat) : Int) ≤
                ((li + (leafIdsL (.cons c cs)).length - 1 : Nat) : Int) := by
              rw [hcnt]
              push_cast
              omega
            exact mul_le_mul_of_nonneg_right h₂ hHnn

end

theorem minX_eq_zero {m : List (String × Pos)} (h0 : ∃ e ∈ m, e.2.1 = 0)
    (hn : ∀ e ∈ m, 0 ≤ e.2.1) : minX m = 0 := by
  obtain ⟨e₀, he₀, hx0⟩ := h0
  cases m with
  | nil => simp at he₀
  | cons a rest =>
      show (rest.map (fun e => e.2.1)).foldl min a.2.1 = 0
      refine le_antisymm ?_ ?_
      · refine foldl_min_le _ _ ?_
        have : (0 : Int) ∈ (a :: rest).map (fun e => e.2.1) := by
          rw [← hx0]
          exact List.mem_map_of_mem _ he₀
        simpa using this
      · refine le_foldl_min _ _ ?_
        intro x hx
        have : x ∈ (a :: rest).map (fun e => e.2.1) := by simpa using hx
        obtain ⟨e, he, rfl⟩ := List.mem_map.mp this
        exact hn e he

theorem minShift_id {m : List (String × Pos)} (h0 : ∃ e ∈ m, e.2.1 = 0)
    (hn : ∀ e ∈ m, 0 ≤ e.2.1) : minShift m = m := by
  unfold minShift
  rw [if_neg]
  rw [minX_eq_zero h0 hn]
  simp

/-- The layout of a whole tree with distinct ids: the `k`-th leaf sits
at `x = k * HORIZONTAL_GAP`, every node at `y = depth * VERTICAL_GAP`,
all x are non-negative and the minimum x is attained at 0 (so the
normalization step does not shift anything). -/
theorem assignPositions_spec (root : StructuredNode) (hnd : (allIds root).Nodup) :
    ((assignPositions root).map Prod.fst).Perm (allIds root) ∧
    (∀ k s, (leafIds root).get? k = some s →
      ∃ y, mapGet (assignPositions root) s = some ((k : Int) * HORIZONTAL_GAP, y)) ∧
    (∀ nd ∈ allNodes root, ∃ x,
      mapGet (assignPositions root) nd.id = some (x, (nd.depth : Int) * VERTICAL_GAP) ∧
        0 ≤ x) ∧
    (∃ e ∈ assignPositions root, e.2.1 = 0) ∧
    (∀ e ∈ assignPositions root, 0 ≤ e.2.1) := by
  obtain ⟨newE, h1, h2, h3, h4⟩ := place_spec root [] 0 hnd (by simp)
  have hkeys : (newE.map Prod.fst).Nodup := h2.nodup_iff.mpr hnd
  have hzero_mem : ∃ e ∈ newE, e.2.1 = 0 := by
    have hne := leafIds_ne_nil root
    cases hleaf : leafIds root with
    | nil => exact absurd hleaf hne
    | cons s rest =>
        obtain ⟨y, hy⟩ := h3 0 s (by rw [hleaf]; rfl)
        refine ⟨(s, (((0 + 0 : Nat) : Int) * HORIZONTAL_GAP, y)), mapGet_mem hy, ?_⟩
        simp
  have hnonneg : ∀ e ∈ newE, 0 ≤ e.2.1 := by
    intro e he
    have hget : mapGet newE e.1 = some e.2 := mapGet_of_mem_nodup hkeys he
    have hmem : e.1 ∈ allIds root := h2.mem_iff.mp (List.mem_map_of_mem Prod.fst he)
    obtain ⟨nd, hnd', hid⟩ := List.mem_map.mp hmem
    obtain ⟨x, hx, hx₁, -⟩ := h4 nd hnd'
    rw [hid] at hx
    rw [hget] at hx
    have hx2 : e.2.1 = x := by rw [Option.some.injEq] at hx; rw [hx]
    rw [hx2]
    refine le_trans ?_ hx₁
    simp
  have hpos_eq : assignPositions root = newE := by
    unfold assignPositions
    rw [h1]
    show minShift ([] ++ newE) = newE
    rw [List.nil_append]
    exact minShift_id hzero_mem hnonneg
  rw [hpos_eq]
  refine ⟨h2, ?_, ?_, hzero_mem, hnonneg⟩
  · intro k s hs
    obtain ⟨y, hy⟩ := h3 k s hs
    refine ⟨y, ?_⟩
    rw [hy]
    norm_num
  · intro nd hnd'
    obtain ⟨x, hx, hx₁, -⟩ := h4 nd hnd'
    refine ⟨x, hx, le_trans ?_ hx₁⟩
    simp

/-- Claim C7 (amended).  For values whose object keys are dot-free (so
node ids are distinct and the positions map has one entry per node):
reading the positions computed by `assignPositions`, the `k`-th leaf in
depth-first order has `x = k * HORIZONTAL_GAP` (hence leaf x's are
strictly increasing and consecutive leaves differ by exactly
`HORIZONTAL_GAP`), every node's `y` is `depth * VERTICAL_GAP`, and the
minimum x over all entries is exactly 0 (the pre-normalization
assignment already attains minimum 0, so normalization shifts
nothing).  Unrestricted the claim fails: a dotted key makes two nodes
share one map entry, which is overwritten. -/
theorem claim_C7 (V : Json) (hwf : jsonWF V = true)
    (hdot : ∀ k ∈ allKeys V, ('.' : Char) ∉ k.data) :
    (∀ k s, (leafIds (buildStructuredNode V "root" 0 "root")).get? k = some s →
      ∃ y, mapGet (assignPositions (buildStructuredNode V "root" 0 "root")) s =
        some ((k : Int) * HORIZONTAL_GAP, y)) ∧
    (∀ nd ∈ allNodes (buildStructuredNode V "root" 0 "root"), ∃ x,
      mapGet (assignPositions (buildStructuredNode V "root" 0 "root")) nd.id =
        some (x, (nd.depth : Int) * VERTICAL_GAP) ∧ 0 ≤ x) ∧
    (∃ e ∈ assignPositions (buildStructuredNode V "root" 0 "root"), e.2.1 = 0) ∧
    (∀ e ∈ assignPositions (buildStructuredNode V "root" 0 "root"), 0 ≤ e.2.1) := by
  obtain ⟨-, h2, h3, h4, h5⟩ := assignPositions_spec (buildStructuredNode V "root" 0 "root")
    (build_allIds_nodup V "root" 0 "root" hwf hdot)
  exact ⟨h2, h3, h4, h5⟩

/-- Claim C7, witness: on `{"a": 1, "b": 2}` the first leaf
(`root.a.value`) reads back x = 0 and the minimum x is attained. -/
theorem claim_C7_witness :
    (∃ y, mapGet (assignPositions (buildStructuredNode
        (Json.obj (.cons "a" (.num 1) (.cons "b" (.num 2) .nil))) "root" 0 "root"))
        "root.a.value" = some (((0 : Nat) : Int) * HORIZONTAL_GAP, y)) ∧
    (∃ e ∈ assignPositions (buildStructuredNode
        (Json.obj (.cons "a" (.num 1) (.cons "b" (.num 2) .nil))) "root" 0 "root"),
      e.2.1 = 0) :=
  ⟨(claim_C7 (Json.obj (.cons "a" (.num 1) (.cons "b" (.num 2) .nil)))
      (by decide) (by decide)).1 0 "root.a.value" rfl,
   (claim_C7 (Json.obj (.cons "a" (.num 1) (.cons "b" (.num 2) .nil)))
      (by decide) (by decide)).2.2.1⟩

/-- Claim C7, counterexample to the original wording: on
`{"a.b": 1, "a": {"b": 2}}` the two leaves share the id
`root.a.b.value`, whose (overwritten, then normalized) map entry is
`(100, 360)`; so the leaf x read back for the 0th leaf is not
`0 * HORIZONTAL_GAP`, the leaf x sequence `100, 100` is not strictly
increasing, and the first `root.a.b` node (depth 1) does not read back
`y = 120`. -/
theorem claim_C7_cex :
    leafIds (buildStructuredNode
        (Json.obj (.cons "a.b" (.num 1)
          (.cons "a" (.obj (.cons "b" (.num 2) .nil)) .nil))) "root" 0 "root") =
      ["root.a.b.value", "root.a.b.value"] ∧
    mapGet (assignPositions (buildStructuredNode
        (Json.obj (.cons "a.b" (.num 1)
          (.cons "a" (.obj (.cons "b" (.num 2) .nil)) .nil))) "root" 0 "root"))
      "root.a.b.value" = some (100, 360) ∧
    (100 : Int) ≠ ((0 : Nat) : Int) * HORIZONTAL_GAP := by
  refine ⟨rfl, by decide, by decide⟩

/-! ## Claim C1: the builder/resolver round trip

The development proceeds in three steps: the tokenizer recovers the
token strings from a rendered path (`tokenizeJsonPath_render`), the
resolver's walk follows `jsonLookup` (`resolveSteps_lookup`), and the
builder's subtree for the reached value is found by `nodeFor`
(`nodeFor_build`). -/

theorem strMk_data (s : String) : String.mk s.data = s := rfl

theorem takeDrop_append {p : Char → Bool} : ∀ (xs ys : List Char),
    (∀ c ∈ xs, p c = true) → (∀ c, ys.head? = some c → p c = false) →
    (xs ++ ys).takeWhile p = xs ∧ (xs ++ ys).dropWhile p = ys
  | [], ys, _, hy => by
      cases ys with
      | nil => exact ⟨rfl, rfl⟩
      | cons c cs =>
          have hc : p c = false := hy c rfl
          exact ⟨List.takeWhile_cons_of_neg (by simp [hc]),
            List.dropWhile_cons_of_neg (by simp [hc])⟩
  | x :: xs, ys, hx, hy => by
      have hpx : p x = true := hx x (List.mem_cons_self _ _)
      have ih := takeDrop_append xs ys (fun c hc => hx c (List.mem_cons_of_mem _ hc)) hy
      refine ⟨?_, ?_⟩
      · rw [List.cons_append, List.takeWhile_cons_of_pos hpx, ih.1]
      · rw [List.cons_append, List.dropWhile_cons_of_pos hpx, ih.2]

theorem renderToks_data_key (k : String) (ts : List Tok) :
    (renderToks (.key k :: ts)).data = '.' :: (k.data ++ (renderToks ts).data) := by
  show (("." ++ k) ++ renderToks ts).data = _
  simp [String.data_append]

theorem renderToks_data_idx (i : Nat) (ts : List Tok) :
    (renderToks (.idx i :: ts)).data =
      '[' :: (natToDigits i ++ ']' :: (renderToks ts).data) := by
  show ((("[" ++ natToString i) ++ "]") ++ renderToks ts).data = _
  simp [String.data_append, natToString]

theorem renderToks_head (ts : List Tok) :
    (renderToks ts).data = [] ∨
      ∃ c l, (renderToks ts).data = c :: l ∧ (c = '.' ∨ c = '[') := by
  cases ts with
  | nil => exact Or.inl rfl
  | cons t ts =>
      cases t with
      | key k => exact Or.inr ⟨'.', _, renderToks_data_key k ts, Or.inl rfl⟩
      | idx i => exact Or.inr ⟨'[', _, renderToks_data_idx i ts, Or.inr rfl⟩

theorem isIntLitSeg_digits {l : List Char} (hne : l ≠ [])
    (hd : ∀ c ∈ l, isDigitChar c = true) : isIntLitSeg l = true := by
  cases l with
  | nil => exact absurd rfl hne
  | cons c cs =>
      have hc : c ≠ '-' := (digit_not_special (hd c (List.mem_cons_self _ _))).2.2.2.1
      unfold isIntLitSeg
      split
      · rename_i ds heq
        rw [List.cons.injEq] at heq
        exact absurd heq.1 hc
      · simp only [List.isEmpty_cons, Bool.not_false, Bool.true_and, List.all_eq_true]
        exact hd

theorem intLitValue_digits {l : List Char} (hne : l ≠ [])
    (hd : ∀ c ∈ l, isDigitChar c = true) :
    intLitValue l = (digitsToNat l : Int) := by
  cases l with
  | nil => exact absurd rfl hne
  | cons c cs =>
      have hc : c ≠ '-' := (digit_not_special (hd c (List.mem_cons_self _ _))).2.2.2.1
      unfold intLitValue
      split
      · rename_i ds heq
        rw [List.cons.injEq] at heq
        exact absurd heq.1 hc
      · rfl

theorem splitAtRBracket_append {a : List Char} (b : List Char)
    (h : ∀ c ∈ a, c ≠ ']') : splitAtRBracket (a ++ ']' :: b) = some (a, b) := by
  induction a with
  | nil => simp [splitAtRBracket]
  | cons c cs ih =>
      have hc : c ≠ ']' := h c (List.mem_cons_self _ _)
      rw [List.cons_append]
      rw [splitAtRBracket.eq_def]
      dsimp only
      rw [if_neg hc, ih (fun x hx => h x (List.mem_cons_of_mem _ hx))]
      rfl

theorem tokenLoop_renderToks : ∀ (T : List Tok),
    (∀ k, Tok.key k ∈ T → GoodKey k) →
    tokenLoop (renderToks T).data = some (T.map tokStr)
  | [] => fun _ => by
      rw [show (renderToks []).data = [] from rfl, tokenLoop]
      rfl
  | .key k :: ts => fun hk => by
      obtain ⟨hne, htrim, hchars⟩ := hk k (List.mem_cons_self _ _)
      have ih := tokenLoop_renderToks ts (fun s hm => hk s (List.mem_cons_of_mem _ hm))
      obtain ⟨c, cs, hkd⟩ : ∃ c cs, k.data = c :: cs := by
        cases hkd : k.data with
        | nil => exact absurd (str_ext hkd) hne
        | cons c cs => exact ⟨c, cs, rfl⟩
      have hmem : ∀ x ∈ c :: cs, x ∈ k.data := fun x hx => by rw [hkd]; exact hx
      have hp : ∀ x ∈ c :: cs, decide (x ≠ '.' ∧ x ≠ '[') = true := by
        intro x hx
        have h := hchars x (hmem x hx)
        simp [h.1, h.2]
      have hq : ∀ x, (renderToks ts).data.head? = some x →
          decide (x ≠ '.' ∧ x ≠ '[') = false := by
        intro x hx
        rcases renderToks_head ts with h0 | ⟨c', l, heq, hc'⟩
        · rw [h0] at hx
          exact absurd hx (by simp)
        · rw [heq] at hx
          simp only [List.head?_cons, Option.some.injEq] at hx
          subst hx
          rcases hc' with h | h <;> simp [h]
      have h0 := takeDrop_append (c :: cs) (renderToks ts).data hp hq
      rw [List.cons_append] at h0
      have hcsp := hchars c (hmem c (List.mem_cons_self _ _))
      rw [renderToks_data_key, tokenLoop_dot, hkd, List.cons_append, tokenLoop]
      dsimp only
      rw [if_neg hcsp.1, if_neg hcsp.2]
      rw [h0.1, h0.2]
      have htr : jsTrimList (c :: cs) = c :: cs := by rw [← hkd]; exact htrim
      rw [htr]
      dsimp only
      rw [ih, ← hkd]
      rfl
  | .idx i :: ts => fun hk => by
      have ih := tokenLoop_renderToks ts (fun s hm => hk s (List.mem_cons_of_mem _ hm))
      have hdig := natToDigits_all_digits i
      obtain ⟨d, ds, hdd⟩ : ∃ d ds, natToDigits i = d :: ds := by
        cases h : natToDigits i with
        | nil => exact absurd h (natToDigits_ne_nil i)
        | cons d ds => exact ⟨d, ds, rfl⟩
      rw [renderToks_data_idx, tokenLoop]
      dsimp only
      rw [if_neg (by decide : ¬('[' : Char) = '.'), if_pos rfl]
      rw [splitAtRBracket_append _ (fun x hx => (digit_not_special (hdig x hx)).2.2.1)]
      dsimp only
      rw [jsTrimList_eq_self (fun x hx => (digit_not_special (hdig x hx)).2.2.2.2.2.2.2.2)]
      rw [hdd]
      dsimp only
      have hall : ∀ x ∈ d :: ds, isDigitChar x = true :=
        fun x hx => hdig x (by rw [hdd]; exact hx)
      have hdigd : isDigitChar d = true := hall d (List.mem_cons_self _ _)
      have hnq : ¬((d = apostChar ∨ d = quoteChar) ∧
          (d :: ds).getLast (by simp) = d) := by
        rintro ⟨h1 | h1, -⟩
        · exact absurd h1 (digit_not_special hdigd).2.2.2.2.2.1
        · exact absurd h1 (digit_not_special hdigd).2.2.2.2.2.2.1
      rw [if_neg hnq]
      rw [if_pos (isIntLitSeg_digits (by simp) hall)]
      rw [ih, intLitValue_digits (by simp) hall]
      rw [← hdd, digitsToNat_natToDigits]
      rfl

theorem getLast?_cons_of_ne_nil {α : Type} (a : α) :
    ∀ {l : List α}, l ≠ [] → (a :: l).getLast? = l.getLast?
  | [], h => absurd rfl h
  | _ :: _, _ => rfl

theorem getLast?_append_cons {α : Type} (l₁ : List α) (x : α) (l₂ : List α) :
    (l₁ ++ x :: l₂).getLast? = (x :: l₂).getLast? := by
  induction l₁ with
  | nil => rfl
  | cons a l ih => rw [List.cons_append, getLast?_cons_of_ne_nil _ (by simp), ih]

/-- A trim-invariant list cannot end in whitespace. -/
theorem trim_last_not_ws {l : List Char} (ht : jsTrimList l = l)
    {c : Char} (hc : l.getLast? = some c) : isJsWhitespace c = false := by
  by_contra hws
  rw [Bool.not_eq_false] at hws
  have heq : l.dropWhile isJsWhitespace = l := by
    refine (List.dropWhile_sublist _).eq_of_length ?_
    have h2 : (jsTrimList l).length ≤ (l.dropWhile isJsWhitespace).length := by
      unfold jsTrimList
      rw [List.length_reverse]
      calc ((l.dropWhile isJsWhitespace).reverse.dropWhile isJsWhitespace).length
          ≤ (l.dropWhile isJsWhitespace).reverse.length :=
            (List.dropWhile_sublist _).length_le
        _ = (l.dropWhile isJsWhitespace).length := List.length_reverse _
    rw [ht] at h2
    have h3 : (l.dropWhile isJsWhitespace).length ≤ l.length :=
      (List.dropWhile_sublist _).length_le
    omega
  have hh : l.reverse.head? = some c := by rw [List.head?_reverse]; exact hc
  obtain ⟨r, hr⟩ : ∃ r, l.reverse = c :: r := by
    cases hrv : l.reverse with
    | nil => rw [hrv] at hh; exact absurd hh (by simp)
    | cons x xs =>
        rw [hrv] at hh
        simp only [List.head?_cons, Option.some.injEq] at hh
        exact ⟨xs, by rw [hh]⟩
  have h3 : (l.reverse.dropWhile isJsWhitespace).length < l.length := by
    rw [hr, List.dropWhile_cons_of_pos (by simp [hws])]
    have h4 : (r.dropWhile isJsWhitespace).length ≤ r.length :=
      (List.dropWhile_sublist _).length_le
    have h5 : l.reverse.length = l.length := List.length_reverse _
    rw [hr] at h5
    simp only [List.length_cons] at h5
    omega
  have h4 : (jsTrimList l).length = l.length := by rw [ht]
  have h5 : jsTrimList l = (l.reverse.dropWhile isJsWhitespace).reverse := by
    unfold jsTrimList
    rw [heq]
  rw [h5, List.length_reverse] at h4
  omega

theorem renderTok_last_not_ws (t : Tok) (hg : ∀ k, t = .key k → GoodKey k)
    {c : Char} (hc : (renderTok t).data.getLast? = some c) :
    isJsWhitespace c = false := by
  cases t with
  | key k =>
      obtain ⟨hne, htrim, -⟩ := hg k rfl
      have hkd : k.data ≠ [] := fun h => hne (str_ext h)
      have hcons : (renderTok (.key k)).data = '.' :: k.data := by
        show ("." ++ k).data = _
        rw [String.data_append]
        rfl
      rw [hcons, getLast?_cons_of_ne_nil _ hkd] at hc
      exact trim_last_not_ws htrim hc
  | idx i =>
      have hcons : (renderTok (.idx i)).data = ('[' :: natToDigits i) ++ [']'] := by
        show (("[" ++ natToString i) ++ "]").data = _
        rw [String.data_append, String.data_append]
        rfl
      rw [hcons, List.getLast?_concat] at hc
      simp only [Option.some.injEq] at hc
      rw [← hc]
      decide

theorem renderToks_last_not_ws : ∀ (T : List Tok),
    (∀ k, Tok.key k ∈ T → GoodKey k) →
    ∀ c, (renderToks T).data.getLast? = some c → isJsWhitespace c = false
  | [], _, c, hc => by
      rw [show (renderToks []).data = [] from rfl] at hc
      exact absurd hc (by simp)
  | t :: ts, hk, c, hc => by
      have hsplit : (renderToks (t :: ts)).data =
          (renderTok t).data ++ (renderToks ts).data := by
        show (renderTok t ++ renderToks ts).data = _
        rw [String.data_append]
      rw [hsplit] at hc
      cases hts : (renderToks ts).data with
      | nil =>
          rw [hts, List.append_nil] at hc
          refine renderTok_last_not_ws t (fun k hk' => hk k ?_) hc
          rw [← hk']
          exact List.mem_cons_self _ _
      | cons x xs =>
          rw [hts, getLast?_append_cons, ← hts] at hc
          exact renderToks_last_not_ws ts (fun k hm => hk k (List.mem_cons_of_mem _ hm)) c hc

theorem trim_renderPath (T : List Tok) (hk : ∀ k, Tok.key k ∈ T → GoodKey k) :
    jsTrimList (renderPath T).data = '$' :: (renderToks T).data := by
  have hdata : (renderPath T).data = '$' :: (renderToks T).data := by
    show ("$" ++ renderToks T).data = _
    rw [String.data_append]
    rfl
  rw [hdata]
  unfold jsTrimList
  rw [List.dropWhile_cons_of_neg (by decide)]
  cases hrev : ('$' :: (renderToks T).data).reverse with
  | nil => exact absurd hrev (by simp)
  | cons x xs =>
      have hx : ('$' :: (renderToks T).data).getLast? = some x := by
        rw [← List.head?_reverse, hrev]
        rfl
      have hxw : isJsWhitespace x = false := by
        cases hts : (renderToks T).data with
        | nil =>
            rw [hts] at hx
            simp only [List.getLast?_singleton, Option.some.injEq] at hx
            rw [← hx]
            decide
        | cons y ys =>
            rw [hts, getLast?_cons_of_ne_nil _ (by simp), ← hts] at hx
            exact renderToks_last_not_ws T hk x hx
      rw [List.dropWhile_cons_of_neg (by simp [hxw]), ← hrev, List.reverse_reverse]

theorem tokenizeJsonPath_render (T : List Tok)
    (hk : ∀ k, Tok.key k ∈ T → GoodKey k) :
    tokenizeJsonPath (renderPath T) = some (T.map tokStr) := by
  have key_eq : tokenizeJsonPath (renderPath T) = tokenLoop (renderToks T).data := by
    unfold tokenizeJsonPath
    rw [trim_renderPath T hk]
    cases T with
    | nil =>
        rw [show (renderToks []).data = [] from rfl]
        rfl
    | cons t ts =>
        cases t with
        | key k =>
            rw [renderToks_data_key]
            exact (tokenLoop_dot _).symm
        | idx i =>
            rw [renderToks_data_idx]
            rfl
  rw [key_eq]
  exact tokenLoop_renderToks T hk

theorem fields_get?_hasOwn : ∀ {fs : JsonFields} {k : String} {v : Json},
    fs.get? k = some v → fs.hasOwn k = true
  | .nil, k, v, h => by simp [JsonFields.get?] at h
  | .cons k' v' fs, k, v, h => by
      by_cases hk : k' = k
      · simp [JsonFields.hasOwn, hk]
      · rw [JsonFields.get?, if_neg hk] at h
        rw [JsonFields.hasOwn, fields_get?_hasOwn h]
        simp

theorem list_get?_lt : ∀ {es : JsonList} {i : Nat} {v : Json},
    es.get? i = some v → i < es.length
  | .nil, i, v, h => by simp [JsonList.get?] at h
  | .cons _ _, 0, _, _ => by
      rw [JsonList.length]
      omega
  | .cons w es, i + 1, v, h => by
      rw [JsonList.get?] at h
      rw [JsonList.length]
      have := list_get?_lt h
      omega

theorem pathSuffix_cons (t : Tok) (ts : List Tok) (p : String) :
    p ++ pathSuffix (t :: ts) = p ++ "." ++ tokStr t ++ pathSuffix ts := by
  show p ++ ("." ++ tokStr t ++ pathSuffix ts) = _
  rw [← String.append_assoc, ← String.append_assoc]

/-- The resolver's walk follows `jsonLookup`, appending the dotted
suffix of the token sequence to the accumulated path. -/
theorem resolveSteps_lookup : ∀ (T : List Tok) (v W : Json) (p : String),
    jsonLookup v T = some W →
    resolveSteps v (T.map tokStr) p = some (W, p ++ pathSuffix T)
  | [], v, W, p => fun h => by
      simp only [jsonLookup, Option.some.injEq] at h
      subst h
      rw [show pathSuffix ([] : List Tok) = "" from rfl, String.append_empty]
      rfl
  | .key k :: ts, v, W, p => fun h => by
      cases v with
      | obj fields =>
          cases hgk : fields.get? k with
          | none => simp [jsonLookup, hgk] at h
          | some w =>
              simp only [jsonLookup, hgk] at h
              have hown := fields_get?_hasOwn hgk
              simp only [List.map_cons]
              rw [show tokStr (Tok.key k) = k from rfl]
              rw [resolveSteps]
              rw [hown]
              simp only [if_true]
              rw [show (JsonFields.get? fields k).getD Json.null = w from by
                rw [hgk]; rfl]
              rw [pathSuffix_cons, show tokStr (Tok.key k) = k from rfl]
              exact resolveSteps_lookup ts w W (p ++ "." ++ k) h
      | null => exact Option.noConfusion h
      | boolean b => exact Option.noConfusion h
      | num n => exact Option.noConfusion h
      | str s => exact Option.noConfusion h
      | arr es => exact Option.noConfusion h
  | .idx i :: ts, v, W, p => fun h => by
      cases v with
      | arr es =>
          cases hgi : es.get? i with
          | none => simp [jsonLookup, hgi] at h
          | some w =>
              simp only [jsonLookup, hgi] at h
              have hlt := list_get?_lt hgi
              simp only [List.map_cons]
              rw [show tokStr (Tok.idx i) = natToString i from rfl]
              rw [resolveSteps]
              rw [jsParseInt_natToString i]
              dsimp only
              rw [if_neg (by omega : ¬((i : Int) < 0))]
              rw [if_neg (by omega : ¬((es.length : Int) ≤ (i : Int)))]
              rw [show ((i : Int)).toNat = i from Int.toNat_natCast i]
              rw [show es.getD i Json.null = w from by
                rw [JsonList.getD, hgi]; rfl]
              rw [show intToString ((i : Nat) : Int) = natToString i from rfl]
              rw [pathSuffix_cons, show tokStr (Tok.idx i) = natToString i from rfl]
              exact resolveSteps_lookup ts w W (p ++ "." ++ natToString i) h
      | null => exact Option.noConfusion h
      | boolean b => exact Option.noConfusion h
      | num n => exact Option.noConfusion h
      | str s => exact Option.noConfusion h
      | obj fields => exact Option.noConfusion h

theorem childFor_build_some : ∀ (fs : JsonFields) (k : String) (v : Json)
    (dep : Nat) (p : String), fs.get? k = some v →
    childFor (buildObjChildren fs dep p) fs k =
      some (buildStructuredNode v k (dep + 1) (p ++ "." ++ k), v)
  | .nil, k, v, dep, p => fun h => by simp [JsonFields.get?] at h
  | .cons k' v' fs, k, v, dep, p => fun h => by
      by_cases hk : k' = k
      · subst hk
        rw [JsonFields.get?, if_pos rfl] at h
        simp only [Option.some.injEq] at h
        subst h
        rw [buildObjChildren, childFor, if_pos rfl]
      · rw [JsonFields.get?, if_neg hk] at h
        rw [buildObjChildren, childFor, if_neg hk]
        exact childFor_build_some fs k v dep p h

theorem childForIdx_build_some : ∀ (es : JsonList) (i j : Nat) (v : Json)
    (dep : Nat) (p : String), es.get? i = some v →
    childForIdx (buildArrChildren es j dep p) es i =
      some (buildStructuredNode v ("[" ++ natToString (j + i) ++ "]") (dep + 1)
        (p ++ "." ++ natToString (j + i)), v)
  | .nil, i, j, v, dep, p => fun h => by simp [JsonList.get?] at h
  | .cons w es, 0, j, v, dep, p => fun h => by
      rw [JsonList.get?] at h
      simp only [Option.some.injEq] at h
      subst h
      rfl
  | .cons w es, i + 1, j, v, dep, p => fun h => by
      rw [JsonList.get?] at h
      have ih := childForIdx_build_some es i (j + 1) v dep p h
      rw [show childForIdx (buildArrChildren (.cons w es) j dep p) (.cons w es) (i + 1) =
        childForIdx (buildArrChildren es (j + 1) dep p) es i from rfl, ih]
      rw [show j + 1 + i = j + (i + 1) from by omega]

/-- The builder's subtree for the value a token sequence reaches: its
key is that of the last token, its depth grows by the number of tokens,
and its id prefix extends by the dotted suffix. -/
theorem nodeFor_build : ∀ (T : List Tok) (v : Json) (key : String) (dep : Nat)
    (p : String) (W : Json), jsonLookup v T = some W →
    nodeFor (buildStructuredNode v key dep p) v T =
      some (buildStructuredNode W (keyFor key T) (dep + T.length) (p ++ pathSuffix T))
  | [], v, key, dep, p, W => fun h => by
      simp only [jsonLookup, Option.some.injEq] at h
      subst h
      rw [show pathSuffix ([] : List Tok) = "" from rfl, String.append_empty]
      cases v <;> rfl
  | .key k :: ts, v, key, dep, p, W => fun h => by
      cases v with
      | obj fields =>
          cases hgk : fields.get? k with
          | none => simp [jsonLookup, hgk] at h
          | some w =>
              simp only [jsonLookup, hgk] at h
              rw [nodeFor]
              rw [show (buildStructuredNode (Json.obj fields) key dep p).children =
                buildObjChildren fields dep p from rfl]
              rw [childFor_build_some fields k w dep p hgk]
              dsimp only
              rw [nodeFor_build ts w k (dep + 1) (p ++ "." ++ k) W h]
              rw [show keyFor key (Tok.key k :: ts) = keyFor k ts from rfl]
              rw [show dep + (Tok.key k :: ts).length = dep + 1 + ts.length from by
                simp only [List.length_cons]; omega]
              rw [pathSuffix_cons, show tokStr (Tok.key k) = k from rfl]
      | null => exact Option.noConfusion h
      | boolean b => exact Option.noConfusion h
      | num n => exact Option.noConfusion h
      | str s => exact Option.noConfusion h
      | arr es => exact Option.noConfusion h
  | .idx i :: ts, v, key, dep, p, W => fun h => by
      cases v with
      | arr es =>
          cases hgi : es.get? i with
          | none => simp [jsonLookup, hgi] at h
          | some w =>
              simp only [jsonLookup, hgi] at h
              rw [nodeFor]
              rw [show (buildStructuredNode (Json.arr es) key dep p).children =
                buildArrChildren es 0 dep p from rfl]
              rw [childForIdx_build_some es i 0 w dep p hgi]
              dsimp only
              rw [show (0 : Nat) + i = i from by omega]
              rw [nodeFor_build ts w ("[" ++ natToString i ++ "]") (dep + 1)
                (p ++ "." ++ natToString i) W h]
              rw [show keyFor key (Tok.idx i :: ts) =
                keyFor ("[" ++ natToString i ++ "]") ts from rfl]
              rw [show dep + (Tok.idx i :: ts).length = dep + 1 + ts.length from by
                simp only [List.length_cons]; omega]
              rw [pathSuffix_cons, show tokStr (Tok.idx i) = natToString i from rfl]
      | null => exact Option.noConfusion h
      | boolean b => exact Option.noConfusion h
      | num n => exact Option.noConfusion h
      | str s => exact Option.noConfusion h
      | obj fields => exact Option.noConfusion h

theorem getLast?_exists {α : Type} : ∀ (l : List α), l ≠ [] → ∃ x, l.getLast? = some x
  | [], h => absurd rfl h
  | [a], _ => ⟨a, by simp⟩
  | a :: b :: l, _ => by
      rw [getLast?_cons_of_ne_nil _ (by simp)]
      exact getLast?_exists (b :: l) (by simp)

theorem keyFor_getLast? : ∀ (key : String) (ts : List Tok) (t : Tok),
    ts.getLast? = some t → keyFor key ts = tokKeyStr t
  | _, [], t => fun h => absurd h (by simp)
  | key, [t'], t => fun h => by
      simp only [List.getLast?_singleton, Option.some.injEq] at h
      subst h
      rfl
  | key, t0 :: t1 :: ts, t => fun h => by
      rw [getLast?_cons_of_ne_nil _ (by simp)] at h
      exact keyFor_getLast? (tokKeyStr t0) (t1 :: ts) t h

theorem tokKeyStr_idx_ne_root (i : Nat) : tokKeyStr (.idx i) ≠ "root" := by
  intro h
  have hd := congrArg String.data h
  have h1 : (tokKeyStr (.idx i)).data = '[' :: (natToDigits i ++ [']']) := by
    show (("[" ++ natToString i) ++ "]").data = _
    rw [String.data_append, String.data_append]
    rfl
  rw [h1, show ("root" : String).data = ['r', 'o', 'o', 't'] from rfl] at hd
  injection hd with h2 h3
  exact absurd h2 (by decide)

/-- Claim C1 (amended).  The round trip between builder and resolver
holds for nonempty token sequences whose key tokens survive the
tokenizer verbatim (nonempty, trim-invariant, and free of `.` and `[`,
the only characters that end a bare segment) and — when the reached
value is a primitive — whose last token is not the object key
`"root"` (that key makes the builder treat the node as the root and
suppress the synthetic `.value` leaf): resolving the rendered path
returns exactly the id `buildStructuredNode` assigned to the reached
value's node, with `.value` appended when that value is a primitive,
and the node then indeed carries the synthetic `.value` child.  The
spec's own example `$.tags[0]` resolves to `root.tags.0.value` of kind
`value`; a key containing `]` also round-trips, e.g. `$.a]b` on
`{"a]b": 1}`.  For the empty token sequence the claim fails
(`claim_C1_cex`). -/
theorem claim_C1 :
    (∀ (V W : Json) (T : List Tok),
      T ≠ [] →
      (∀ k, Tok.key k ∈ T → GoodKey k) →
      (detectNodeType W = .primitive → T.getLast? ≠ some (Tok.key "root")) →
      jsonLookup V T = some W →
      ∃ n, nodeFor (buildStructuredNode V "root" 0 "root") V T = some n ∧
        n.id = "root" ++ pathSuffix T ∧
        resolveNodeIdForJsonPath V (renderPath T) =
          some (if detectNodeType W = .primitive
                then ⟨n.id ++ ".value", .value⟩
                else ⟨n.id, detectNodeType W⟩) ∧
        (detectNodeType W = .primitive →
          ∃ c, n.children = .cons c .nil ∧ c.id = n.id ++ ".value" ∧
            c.type = .value)) ∧
    resolveNodeIdForJsonPath
      (Json.obj (.cons "tags"
        (.arr (.cons (.str "json") (.cons (.str "tree") .nil))) .nil))
      "$.tags[0]" = some ⟨"root.tags.0.value", .value⟩ ∧
    resolveNodeIdForJsonPath (Json.obj (.cons "a]b" (.num 1) .nil))
      "$.a]b" = some ⟨"root.a]b.value", .value⟩ := by
  refine ⟨?_, ?_, ?_⟩
  · intro V W T hne hk hroot hlook
    refine ⟨_, nodeFor_build T V "root" 0 "root" W hlook, build_id _ _ _ _, ?_, ?_⟩
    · have htok := tokenizeJsonPath_render T hk
      have hres := resolveSteps_lookup T V W "root" hlook
      obtain ⟨t₀, T', rfl⟩ : ∃ t₀ T', T = t₀ :: T' := by
        cases T with
        | nil => exact absurd rfl hne
        | cons a b => exact ⟨a, b, rfl⟩
      unfold resolveNodeIdForJsonPath
      rw [htok, List.map_cons]
      dsimp only
      rw [← List.map_cons, hres]
      rw [finishResolve]
      rw [build_id]
      by_cases hp : detectNodeType W = JsonNodeType.primitive
      · rw [if_pos hp, if_pos hp]
      · rw [if_neg hp, if_neg hp]
    · intro hprim
      obtain ⟨tl, htl⟩ := getLast?_exists T hne
      have hkey := keyFor_getLast? "root" T tl htl
      have hkne : keyFor "root" T ≠ "root" := by
        rw [hkey]
        cases tl with
        | key k =>
            intro hcon
            exact hroot hprim (by rw [htl, show k = "root" from hcon])
        | idx i => exact tokKeyStr_idx_ne_root i
      rw [buildStructuredNode_prim W hprim, if_neg hkne]
      exact ⟨_, rfl, rfl, rfl⟩
  · have h : tokenizeJsonPath "$.tags[0]" = some ["tags", "0"] := by
      simp [tokenizeJsonPath, jsTrimList, isJsWhitespace, tokenLoop, splitAtRBracket,
        apostChar, quoteChar, isIntLitSeg, isDigitChar, intLitValue, digitsToNat,
        intToString, natToString, natToDigits, digitChar]
    simp [resolveNodeIdForJsonPath, h, resolveSteps, jsParseInt, isJsWhitespace,
      isDigitChar, digitsToNat, JsonFields.hasOwn, JsonFields.get?, JsonList.length,
      JsonList.getD, JsonList.get?, finishResolve, detectNodeType, intToString,
      natToString, natToDigits, digitChar]
  · have h : tokenizeJsonPath "$.a]b" = some ["a]b"] := by
      simp [tokenizeJsonPath, jsTrimList, isJsWhitespace, tokenLoop]
    simp [resolveNodeIdForJsonPath, h, resolveSteps, JsonFields.hasOwn,
      JsonFields.get?, finishResolve, detectNodeType]

/-- Claim C1, witness: the round trip applied to `{"tags": ["json",
"tree"]}` with the token sequence `tags`, `0`. -/
theorem claim_C1_witness :
    ∃ n, nodeFor
        (buildStructuredNode
          (Json.obj (.cons "tags"
            (.arr (.cons (.str "json") (.cons (.str "tree") .nil))) .nil))
          "root" 0 "root")
        (Json.obj (.cons "tags"
          (.arr (.cons (.str "json") (.cons (.str "tree") .nil))) .nil))
        [Tok.key "tags", Tok.idx 0] = some n ∧
      n.id = "root" ++ pathSuffix [Tok.key "tags", Tok.idx 0] ∧
      resolveNodeIdForJsonPath
          (Json.obj (.cons "tags"
            (.arr (.cons (.str "json") (.cons (.str "tree") .nil))) .nil))
          (renderPath [Tok.key "tags", Tok.idx 0]) =
        some (if detectNodeType (Json.str "json") = .primitive
              then ⟨n.id ++ ".value", .value⟩
              else ⟨n.id, detectNodeType (Json.str "json")⟩) ∧
      (detectNodeType (Json.str "json") = .primitive →
        ∃ c, n.children = .cons c .nil ∧ c.id = n.id ++ ".value" ∧
          c.type = .value) :=
  claim_C1.1
    (Json.obj (.cons "tags"
      (.arr (.cons (.str "json") (.cons (.str "tree") .nil))) .nil))
    (Json.str "json") [Tok.key "tags", Tok.idx 0]
    (by simp)
    (by
      intro k hm
      simp only [List.mem_cons, List.not_mem_nil, or_false] at hm
      rcases hm with hm | hm
      · injection hm with h
        subst h
        exact ⟨by decide, by decide, by decide⟩
      · exact Tok.noConfusion hm)
    (fun _ => by decide)
    rfl

/-- Claim C1, counterexample to the original wording: the empty token
sequence reaches the root object itself, whose built node has id
`root`, but resolving its rendered path `$` returns null because the
tokenizer yields no tokens and the value is not a primitive. -/
theorem claim_C1_cex :
    jsonLookup (Json.obj (.cons "a" (.num 1) .nil)) [] =
      some (Json.obj (.cons "a" (.num 1) .nil)) ∧
    nodeFor (buildStructuredNode (Json.obj (.cons "a" (.num 1) .nil)) "root" 0 "root")
        (Json.obj (.cons "a" (.num 1) .nil)) [] =
      some (buildStructuredNode (Json.obj (.cons "a" (.num 1) .nil)) "root" 0 "root") ∧
    (buildStructuredNode (Json.obj (.cons "a" (.num 1) .nil)) "root" 0 "root").id =
      "root" ∧
    renderPath [] = "$" ∧
    resolveNodeIdForJsonPath (Json.obj (.cons "a" (.num 1) .nil)) "$" = none := by
  refine ⟨rfl, rfl, rfl, rfl, ?_⟩
  have h : tokenizeJsonPath "$" = some [] := by
    simp [tokenizeJsonPath, jsTrimList, isJsWhitespace, tokenLoop]
  simp [resolveNodeIdForJsonPath, h, detectNodeType]

end JsonTree
